import Mathlib

/-!
Verification development for the `astar` Go package: a concurrent A* search
engine with a run-to-completion orchestrator (`Search`), an incremental
state machine (`Stepper.Step`), a binary-heap frontier and a worker pool.

Modelling conventions:
* `float64` costs are modeled as `ℚ`.
* Go maps are modeled as functions into `Option`; Go map deletion and
  insertion become pointwise function update.  The engine never iterates a
  map except to copy it or list its keys, so this is faithful.
* The frontier (`container/heap` over `PriorityQueue`) is modeled through
  the library's contract: `heap.Pop` removes and returns an item minimal
  with respect to `Less` (strictly smaller `FCost`); among equal keys some
  deterministic element is returned, modeled here as the first minimal item
  in insertion order.  `heap.Fix` is an in-place key update.  The code keeps
  `openSetMap` in lockstep with the heap (every push/pop updates both), so a
  single item list models both the heap and its side index.
* The worker pool computes, per dispatched task, a pure function of the
  task's fields; the orchestrator then applies every proposal of the round.
  Proposal arrival order is scheduler dependent in Go; the model applies
  them in dispatch (neighbor list) order.  The worker count does not affect
  the set of proposals of a round, so it does not appear in the model.
-/

set_option linter.unusedSectionVars false

namespace AStar

/-- Neighbor: a reachable node with an edge cost (from the Go `Neighbor` struct). -/
structure Neighbor (Node : Type) where
  id : Node
  cost : ℚ
deriving DecidableEq

/-- Graph capability: neighbor enumeration (the Go `Graph` interface). -/
structure Graph (Node : Type) where
  neighbors : Node → List (Neighbor Node)

/-- Heuristic: estimated cost from one node to another (the Go `Heuristic` type). -/
abbrev Heuristic (Node : Type) := Node → Node → ℚ

/-- Frontier item (the Go `PriorityQueueItem`).  `IndexInQueue` is
heap-internal position bookkeeping used only to make `heap.Fix` fast; it is
not part of the abstract heap contents and is not modeled. -/
structure PriorityQueueItem (Node : Type) where
  node : Node
  gScore : ℚ
  fCost : ℚ
deriving DecidableEq

/-- A worker's relaxation proposal (the Go `RelaxProposal`). -/
structure RelaxProposal (Node : Type) where
  fromNode : Node
  toNode : Node
  gScore : ℚ
  fCost : ℚ
deriving DecidableEq

/-- Outcome of a run-to-completion search (the Go `Result`). -/
structure Result (Node : Type) where
  path : List Node
  totalCost : ℚ
  expandedNodes : ℕ
  found : Bool
deriving DecidableEq

/-- The orchestrator-owned state of `Search`: frontier (`openSet` plus its
side index `openSetMap`, modeled as one list), closed set (as a list in
closing order; the Go `map[NodeType]bool` is its underlying set), the
predecessor map `cameFrom`, the g-score map `pathCostFromStart` and the
expansion counter. -/
structure SearchState (Node : Type) where
  openSet : List (PriorityQueueItem Node)
  closedSet : List Node
  cameFrom : Node → Option Node
  pathCostFromStart : Node → Option ℚ
  expandedNodes : ℕ

variable {Node : Type} [DecidableEq Node]

/-- `heap.Pop` on the `PriorityQueue`: removes and returns an item with
minimal `FCost` (the `Less` order); ties resolve to the first such item. -/
def popMin : List (PriorityQueueItem Node) →
    Option (PriorityQueueItem Node × List (PriorityQueueItem Node))
  | [] => none
  | it :: rest =>
    match popMin rest with
    | none => some (it, [])
    | some (m, rest') =>
      if it.fCost ≤ m.fCost then some (it, rest) else some (m, it :: rest')

/-- Lookup of `openSetMap[n]`: the live frontier item for a node, if any. -/
def findOpenItem (l : List (PriorityQueueItem Node)) (n : Node) :
    Option (PriorityQueueItem Node) :=
  l.find? fun it => decide (it.node = n)

/-- The g-score improvement test `!exists || proposal.GScore < currentG`:
an absent entry is implicitly infinite and always improved. -/
def shouldUpdate (currentG : Option ℚ) (gNew : ℚ) : Bool :=
  match currentG with
  | none => true
  | some c => decide (gNew < c)

/-- The relaxation rule applied to one received proposal.  This models the
body of the proposal-collection loop, which is identical in `Search`
(part_001 lines 159-181) and `Stepper.Step` (stepper.go lines 173-190):
discard if the target is closed; otherwise if the g-score is absent or
improved, store g-score and predecessor, then push a fresh item if the node
is not in the open-set index, or decrease its key in place if the new
f-cost is smaller. -/
def applyProposal (st : SearchState Node) (p : RelaxProposal Node) : SearchState Node :=
  if p.toNode ∈ st.closedSet then st
  else
    if shouldUpdate (st.pathCostFromStart p.toNode) p.gScore then
      let g' : Node → Option ℚ :=
        fun n => if n = p.toNode then some p.gScore else st.pathCostFromStart n
      let came' : Node → Option Node :=
        fun n => if n = p.toNode then some p.fromNode else st.cameFrom n
      match findOpenItem st.openSet p.toNode with
      | none =>
        { st with pathCostFromStart := g', cameFrom := came',
                  openSet := st.openSet ++ [⟨p.toNode, p.gScore, p.fCost⟩] }
      | some item =>
        if p.fCost < item.fCost then
          { st with pathCostFromStart := g', cameFrom := came',
                    openSet := st.openSet.map fun it =>
                      if it.node = p.toNode then ⟨it.node, p.gScore, p.fCost⟩ else it }
        else
          { st with pathCostFromStart := g', cameFrom := came' }
    else st

/-- The proposals produced by the worker pool for one expansion round: one
task per neighbor, each computing `tentativeG = CurrentGScore + Neighbor.Cost`
and `f = tentativeG + heuristic(Neighbor.ID, GoalNode)`.  Workers read only
their task's fields, so the round's proposals are a pure function of the
dispatched tasks. -/
def proposalsFor (h : Heuristic Node) (goalNode current : Node) (currentGScore : ℚ)
    (neighbors : List (Neighbor Node)) : List (RelaxProposal Node) :=
  neighbors.map fun nb =>
    { fromNode := current, toNode := nb.id,
      gScore := currentGScore + nb.cost,
      fCost := currentGScore + nb.cost + h nb.id goalNode }

/-- Loop body of `reconstructPath`: walk predecessor links from `current`
until the start node or a node with no predecessor, appending each
predecessor.  The Go loop carries no fuel; with fuel at least the chain
length the model agrees with it (on reachable states the chain is acyclic). -/
def reconstructPathLoop (cameFrom : Node → Option Node) (startNode : Node) :
    ℕ → Node → List Node → List Node
  | 0, _, path => path
  | fuel + 1, current, path =>
    if current = startNode then path
    else
      match cameFrom current with
      | none => path
      | some previousNode =>
        reconstructPathLoop cameFrom startNode fuel previousNode (path ++ [previousNode])

/-- `reconstructPath`: collect `current` and its predecessor chain, then
reverse (part_001 lines 187-206). -/
def reconstructPath (fuel : ℕ) (cameFrom : Node → Option Node)
    (current startNode : Node) : List Node :=
  (reconstructPathLoop cameFrom startNode fuel current [current]).reverse

/-- Initial search state: start node seeded with g-score 0 and a frontier
holding only the start item (shared by `Search` and `NewStepper`). -/
def initState (h : Heuristic Node) (startNode goalNode : Node) : SearchState Node :=
  { openSet := [⟨startNode, 0, h startNode goalNode⟩],
    closedSet := [],
    cameFrom := fun _ => none,
    pathCostFromStart := fun n => if n = startNode then some 0 else none,
    expandedNodes := 0 }

/-- The orchestrator loop of `Search` (part_001 lines 108-184).  One
iteration: return not-found on empty frontier; pop the minimum-f item
(removing it from the side index); skip it if already closed; otherwise
close it, count the expansion, return on goal, or dispatch one task per
neighbor and apply every collected proposal.  The Go loop carries no fuel;
`none` models running out of the supplied bound. -/
def searchLoop (G : Graph Node) (h : Heuristic Node) (startNode goalNode : Node) :
    ℕ → SearchState Node → Option (Result Node × SearchState Node)
  | 0, _ => none
  | fuel + 1, st =>
    match popMin st.openSet with
    | none =>
      some ({ path := [], totalCost := 0,
              expandedNodes := st.expandedNodes, found := false }, st)
    | some (currentItem, rest) =>
      let st1 := { st with openSet := rest }
      if currentItem.node ∈ st1.closedSet then
        searchLoop G h startNode goalNode fuel st1
      else
        let st2 := { st1 with closedSet := st1.closedSet ++ [currentItem.node],
                              expandedNodes := st1.expandedNodes + 1 }
        if currentItem.node = goalNode then
          some ({ path := reconstructPath st2.closedSet.length st2.cameFrom
                    currentItem.node startNode,
                  totalCost := currentItem.gScore,
                  expandedNodes := st2.expandedNodes, found := true }, st2)
        else
          let proposals := proposalsFor h goalNode currentItem.node currentItem.gScore
            (G.neighbors currentItem.node)
          searchLoop G h startNode goalNode fuel (proposals.foldl applyProposal st2)

/-- `Search`: run the orchestrator loop from the initial state.  The final
state is returned alongside the Go `Result` so that theorems can speak
about the closed set; the Go function holds it in locals at return time. -/
def Search (G : Graph Node) (h : Heuristic Node) (startNode goalNode : Node)
    (fuel : ℕ) : Option (Result Node × SearchState Node) :=
  searchLoop G h startNode goalNode fuel (initState h startNode goalNode)

/-- The per-step observable state of a `Stepper` (the Go `StepSnapshot`).
`Current` is a `NodeType` field that the terminal branches leave at the Go
zero value, modeled as `none`.  `Open` and `Closed` are `map[NodeType]bool`
membership sets, modeled as the key lists (Go iteration order over them is
unspecified; the spec requires comparing them as sets). -/
structure StepSnapshot (Node : Type) where
  current : Option Node
  openSet : List Node
  closedSet : List Node
  cameFrom : Node → Option Node
  done : Bool
  found : Bool
  path : List Node
  stepIndex : ℕ

/-- The Go `Stepper`: the same orchestrator state as `Search` (the embedded
`core`), plus the step counter and the terminal flags.  The graph, goal and
heuristic fields are passed as arguments.  The `expandedNodes` field of the
embedded core has no Go counterpart in the Stepper and is observable
nowhere; the model keeps it in lockstep with the closed set so that the
embedded core evolves exactly as `Search`'s state does. -/
structure StepperState (Node : Type) where
  core : SearchState Node
  stepCount : ℕ
  done : Bool
  found : Bool

/-- `NewStepper`: identical state initialization to `Search` (stepper.go
lines 45-100); the worker pool holds no state and needs no model. -/
def newStepper (h : Heuristic Node) (startNode goalNode : Node) : StepperState Node :=
  { core := initState h startNode goalNode, stepCount := 0, done := false, found := false }

/-- The key set of `openSetMap`, as built by `openSetToBoolMap`. -/
def openNodeList (l : List (PriorityQueueItem Node)) : List Node :=
  l.map PriorityQueueItem.node

/-- The snapshot returned by `Step` once `s.done` holds (stepper.go lines
111-121): copies of the membership maps, `Path` left nil and `Current` left
at the zero value, step index unchanged. -/
def doneSnapshot (s : StepperState Node) : StepSnapshot Node :=
  { current := none, openSet := openNodeList s.core.openSet,
    closedSet := s.core.closedSet, cameFrom := s.core.cameFrom,
    done := true, found := s.found, path := [], stepIndex := s.stepCount }

/-- `inferStartFromCameFrom`: walk predecessor links until a node with no
predecessor (stepper.go lines 234-243).  The Go loop carries no fuel; with
fuel at least the chain length the model agrees with it. -/
def inferStartFromCameFrom (came : Node → Option Node) : ℕ → Node → Node
  | 0, cur => cur
  | fuel + 1, cur =>
    match came cur with
    | none => cur
    | some prev => inferStartFromCameFrom came fuel prev

/-- `Stepper.Step` (stepper.go lines 110-202): return the terminal snapshot
if done; mark exhausted on empty frontier; otherwise advance the step
counter, pop the minimum-f item, recurse on a stale closed-node pop
(consuming fuel, mirroring the Go self-call), close the node, and either
finish on goal (reconstructing the path from the inferred start) or expand
neighbors through the worker round and apply every proposal. -/
def stepperStep (G : Graph Node) (h : Heuristic Node) (goalNode : Node) :
    ℕ → StepperState Node → Option (StepperState Node × StepSnapshot Node)
  | 0, _ => none
  | fuel + 1, s =>
    if s.done then some (s, doneSnapshot s)
    else
      match popMin s.core.openSet with
      | none =>
        let s' := { s with done := true }
        some (s', { current := none, openSet := openNodeList s'.core.openSet,
                    closedSet := s'.core.closedSet, cameFrom := s'.core.cameFrom,
                    done := true, found := false, path := [], stepIndex := s'.stepCount })
      | some (currentItem, rest) =>
        let s1 := { s with core := { s.core with openSet := rest },
                           stepCount := s.stepCount + 1 }
        if currentItem.node ∈ s1.core.closedSet then
          stepperStep G h goalNode fuel s1
        else
          let s2 := { s1 with core :=
            { s1.core with closedSet := s1.core.closedSet ++ [currentItem.node],
                           expandedNodes := s1.core.expandedNodes + 1 } }
          if currentItem.node = goalNode then
            let s3 := { s2 with done := true, found := true }
            some (s3, { current := some currentItem.node,
                        openSet := openNodeList s3.core.openSet,
                        closedSet := s3.core.closedSet,
                        cameFrom := s3.core.cameFrom,
                        done := true, found := true,
                        path := reconstructPath s3.core.closedSet.length s3.core.cameFrom
                          currentItem.node
                          (inferStartFromCameFrom s3.core.cameFrom
                            s3.core.closedSet.length currentItem.node),
                        stepIndex := s3.stepCount })
          else
            let proposals := proposalsFor h goalNode currentItem.node currentItem.gScore
              (G.neighbors currentItem.node)
            let s4 := { s2 with core := proposals.foldl applyProposal s2.core }
            some (s4, { current := some currentItem.node,
                        openSet := openNodeList s4.core.openSet,
                        closedSet := s4.core.closedSet, cameFrom := s4.core.cameFrom,
                        done := false, found := false, path := [],
                        stepIndex := s4.stepCount })

/-- Calling `Step` repeatedly until it returns a snapshot with `Done = true`,
yielding the terminal stepper state and terminal snapshot. -/
def stepperRun (G : Graph Node) (h : Heuristic Node) (goalNode : Node) :
    ℕ → StepperState Node → Option (StepperState Node × StepSnapshot Node)
  | 0, _ => none
  | fuel + 1, s =>
    match stepperStep G h goalNode (fuel + 1) s with
    | none => none
    | some (s', snap) =>
      if snap.done then some (s', snap) else stepperRun G h goalNode fuel s'

/-- Paths in the caller-supplied graph: a step list is a path from `a` to
`b` when each step is a neighbor (with its edge cost) of the node before it. -/
inductive IsPath (G : Graph Node) : Node → List (Neighbor Node) → Node → Prop
  | nil (a : Node) : IsPath G a [] a
  | cons {a e : Node} {nb : Neighbor Node} {rest : List (Neighbor Node)} :
      nb ∈ G.neighbors a → IsPath G nb.id rest e → IsPath G a (nb :: rest) e

/-- Summed edge costs of a path's step list. -/
def pathCost (steps : List (Neighbor Node)) : ℚ :=
  (steps.map Neighbor.cost).sum

/-- The node sequence visited by a path starting at `a`. -/
def pathNodes (a : Node) (steps : List (Neighbor Node)) : List Node :=
  a :: steps.map Neighbor.id

/-- All edge costs of the graph are non-negative. -/
def NonnegCosts (G : Graph Node) : Prop :=
  ∀ a, ∀ nb ∈ G.neighbors a, 0 ≤ nb.cost

/-- The heuristic is consistent toward `goalNode`: it never decreases by
more than an edge's cost across that edge. -/
def Consistent (G : Graph Node) (h : Heuristic Node) (goalNode : Node) : Prop :=
  ∀ a, ∀ nb ∈ G.neighbors a, h a goalNode ≤ nb.cost + h nb.id goalNode

/-- The heuristic is admissible toward `goalNode`: it never overestimates
the cost of any path to the goal. -/
def Admissible (G : Graph Node) (h : Heuristic Node) (goalNode : Node) : Prop :=
  ∀ n steps, IsPath G n steps goalNode → h n goalNode ≤ pathCost steps

/-- The heuristic estimate is non-negative (the heuristic capability's
contract). -/
def NonnegHeuristic (h : Heuristic Node) (goalNode : Node) : Prop :=
  ∀ n, 0 ≤ h n goalNode

theorem popMin_eq_none_iff (l : List (PriorityQueueItem Node)) :
    popMin l = none ↔ l = [] := by
  induction l with
  | nil => simp [popMin]
  | cons it rest ih =>
    constructor
    · intro hnone
      unfold popMin at hnone
      rcases hp : popMin rest with - | ⟨m, rest'⟩ <;> rw [hp] at hnone
      · cases hnone
      · by_cases hle : it.fCost ≤ m.fCost <;> simp [hle] at hnone
    · intro hc
      cases hc

theorem popMin_split {l : List (PriorityQueueItem Node)} {m : PriorityQueueItem Node}
    {rest : List (PriorityQueueItem Node)} (hp : popMin l = some (m, rest)) :
    ∃ l₁ l₂, l = l₁ ++ m :: l₂ ∧ rest = l₁ ++ l₂ := by
  induction l generalizing m rest with
  | nil => cases hp
  | cons it tl ih =>
    unfold popMin at hp
    rcases htl : popMin tl with - | ⟨m0, rest0⟩ <;> rw [htl] at hp
    · rw [popMin_eq_none_iff] at htl
      subst htl
      cases hp
      exact ⟨[], [], rfl, rfl⟩
    · by_cases hle : it.fCost ≤ m0.fCost <;> simp only [hle, if_true, if_false] at hp
      · cases hp
        exact ⟨[], tl, rfl, rfl⟩
      · cases hp
        obtain ⟨l₁, l₂, hl, hr⟩ := ih htl
        exact ⟨it :: l₁, l₂, by simp [hl], by simp [hr]⟩

theorem popMin_min {l : List (PriorityQueueItem Node)} {m : PriorityQueueItem Node}
    {rest : List (PriorityQueueItem Node)} (hp : popMin l = some (m, rest)) :
    ∀ it ∈ l, m.fCost ≤ it.fCost := by
  induction l generalizing m rest with
  | nil => cases hp
  | cons it tl ih =>
    unfold popMin at hp
    rcases htl : popMin tl with - | ⟨m0, rest0⟩ <;> rw [htl] at hp
    · rw [popMin_eq_none_iff] at htl
      subst htl
      cases hp
      intro x hx
      rcases List.mem_cons.mp hx with rfl | hx
      · exact le_refl _
      · simp at hx
    · by_cases hle : it.fCost ≤ m0.fCost <;> simp only [hle, if_true, if_false] at hp
      · cases hp
        intro x hx
        rcases List.mem_cons.mp hx with rfl | hx
        · exact le_refl _
        · exact le_trans hle (ih htl x hx)
      · cases hp
        intro x hx
        rcases List.mem_cons.mp hx with rfl | hx
        · exact le_of_not_le hle
        · exact ih htl x hx

theorem popMin_perm {l : List (PriorityQueueItem Node)} {m : PriorityQueueItem Node}
    {rest : List (PriorityQueueItem Node)} (hp : popMin l = some (m, rest)) :
    l.Perm (m :: rest) := by
  obtain ⟨l₁, l₂, hl, hr⟩ := popMin_split hp
  rw [hl, hr]
  exact List.perm_middle

theorem popMin_mem {l : List (PriorityQueueItem Node)} {m : PriorityQueueItem Node}
    {rest : List (PriorityQueueItem Node)} (hp : popMin l = some (m, rest)) :
    m ∈ l :=
  (popMin_perm hp).mem_iff.mpr (List.mem_cons_self _ _)

theorem popMin_rest_subset {l : List (PriorityQueueItem Node)} {m : PriorityQueueItem Node}
    {rest : List (PriorityQueueItem Node)} (hp : popMin l = some (m, rest)) :
    ∀ it ∈ rest, it ∈ l := by
  intro it hit
  exact (popMin_perm hp).mem_iff.mpr (List.mem_cons_of_mem _ hit)

theorem findOpenItem_eq_none_iff (l : List (PriorityQueueItem Node)) (n : Node) :
    findOpenItem l n = none ↔ ∀ it ∈ l, it.node ≠ n := by
  unfold findOpenItem
  rw [List.find?_eq_none]
  simp

theorem findOpenItem_eq_some {l : List (PriorityQueueItem Node)} {n : Node}
    {item : PriorityQueueItem Node} (hf : findOpenItem l n = some item) :
    item ∈ l ∧ item.node = n := by
  refine ⟨List.mem_of_find?_eq_some hf, ?_⟩
  have := List.find?_some hf
  simpa using this

@[simp] theorem pathCost_nil : pathCost ([] : List (Neighbor Node)) = 0 := rfl

@[simp] theorem pathCost_cons (nb : Neighbor Node) (steps : List (Neighbor Node)) :
    pathCost (nb :: steps) = nb.cost + pathCost steps := by
  simp [pathCost]

@[simp] theorem pathCost_append (s₁ s₂ : List (Neighbor Node)) :
    pathCost (s₁ ++ s₂) = pathCost s₁ + pathCost s₂ := by
  simp [pathCost]

theorem IsPath.trans {G : Graph Node} {a b c : Node} {s₁ s₂ : List (Neighbor Node)}
    (h₁ : IsPath G a s₁ b) (h₂ : IsPath G b s₂ c) : IsPath G a (s₁ ++ s₂) c := by
  induction h₁ with
  | nil => exact h₂
  | cons hnb _ ih => exact IsPath.cons hnb (ih h₂)

theorem IsPath.single {G : Graph Node} {a : Node} {nb : Neighbor Node}
    (hnb : nb ∈ G.neighbors a) : IsPath G a [nb] nb.id :=
  IsPath.cons hnb (IsPath.nil nb.id)

theorem IsPath.nil_eq {G : Graph Node} {a b : Node} (hp : IsPath G a [] b) : a = b := by
  cases hp
  rfl

theorem IsPath.snoc_inv {G : Graph Node} {a z : Node} {nb : Neighbor Node}
    {steps : List (Neighbor Node)} (hp : IsPath G a (steps ++ [nb]) z) :
    ∃ m, IsPath G a steps m ∧ nb ∈ G.neighbors m ∧ nb.id = z := by
  induction steps generalizing a with
  | nil =>
    cases hp with
    | cons hnb htl =>
      have := htl.nil_eq
      exact ⟨a, IsPath.nil a, hnb, this⟩
  | cons hd tl ih =>
    cases hp with
    | cons hnb htl =>
      obtain ⟨m, hm, hmem, hid⟩ := ih htl
      exact ⟨m, IsPath.cons hnb hm, hmem, hid⟩

theorem pathCost_nonneg {G : Graph Node} (hnn : NonnegCosts G) {a b : Node}
    {steps : List (Neighbor Node)} (hp : IsPath G a steps b) : 0 ≤ pathCost steps := by
  induction hp with
  | nil => simp
  | cons hnb _ ih =>
    have := hnn _ _ hnb
    simp only [pathCost_cons]
    linarith

theorem consistent_telescope {G : Graph Node} {h : Heuristic Node} {goalNode : Node}
    (hcons : Consistent G h goalNode) {a b : Node} {steps : List (Neighbor Node)}
    (hp : IsPath G a steps b) : h a goalNode ≤ pathCost steps + h b goalNode := by
  induction hp with
  | nil => simp
  | cons hnb _ ih =>
    have := hcons _ _ hnb
    simp only [pathCost_cons]
    linarith

theorem pathNodes_getLast {G : Graph Node} {a b : Node} {steps : List (Neighbor Node)}
    (hp : IsPath G a steps b) : (pathNodes a steps).getLast? = some b := by
  induction hp with
  | nil => rfl
  | @cons a e nb rest _ _ ih =>
    have hne : pathNodes nb.id rest ≠ [] := by simp [pathNodes]
    simp only [pathNodes, List.map_cons]
    rw [List.getLast?_cons_cons]
    exact ih

/-- The base loop invariant on orchestrator state, shared by `Search` and
the `Stepper` core.  Expansion completeness is kept separately (`ExpInv`)
because the state returned with a found result does not satisfy it for the
just-closed goal node. -/
structure Inv (G : Graph Node) (h : Heuristic Node) (startNode goalNode : Node)
    (st : SearchState Node) : Prop where
  openNodup : (st.openSet.map PriorityQueueItem.node).Nodup
  closedNodup : st.closedSet.Nodup
  openClosedDisjoint : ∀ it ∈ st.openSet, it.node ∉ st.closedSet
  sync : ∀ it ∈ st.openSet, st.pathCostFromStart it.node = some it.gScore ∧
    it.fCost = it.gScore + h it.node goalNode
  closedHasG : ∀ n ∈ st.closedSet, ∃ c, st.pathCostFromStart n = some c
  gDomain : ∀ n c, st.pathCostFromStart n = some c →
    n ∈ st.closedSet ∨ ∃ it ∈ st.openSet, it.node = n
  sound : ∀ n c, st.pathCostFromStart n = some c →
    ∃ steps, IsPath G startNode steps n ∧ pathCost steps = c
  startG : st.pathCostFromStart startNode = some 0
  startCame : st.cameFrom startNode = none
  startFirst : (st.closedSet = [] ∧ st.openSet.map PriorityQueueItem.node = [startNode]) ∨
    st.closedSet.head? = some startNode
  startAvail : startNode ∉ st.closedSet →
    ∃ it ∈ st.openSet, it.node = startNode ∧ it.gScore = 0
  cameClosed : ∀ n m, st.cameFrom n = some m → m ∈ st.closedSet ∧
    ∃ gm nb, st.pathCostFromStart m = some gm ∧ nb ∈ G.neighbors m ∧ nb.id = n ∧
      st.pathCostFromStart n = some (gm + nb.cost)
  cameOpen : ∀ it ∈ st.openSet, it.node ≠ startNode → st.cameFrom it.node ≠ none
  cameClosedTotal : ∀ n ∈ st.closedSet, n ≠ startNode → st.cameFrom n ≠ none
  cameOrder : ∀ n m, st.cameFrom n = some m → n ∈ st.closedSet →
    st.closedSet.indexOf m < st.closedSet.indexOf n

/-- Neighbor `nb` of a closed node with frozen g-score `gm` is accounted
for: either already closed, or in the frontier with a g-score at most
`gm + nb.cost`. -/
def ExpAt (G : Graph Node) (st : SearchState Node) (gm : ℚ) (nb : Neighbor Node) : Prop :=
  nb.id ∈ st.closedSet ∨ ∃ it ∈ st.openSet, it.node = nb.id ∧ it.gScore ≤ gm + nb.cost

/-- Expansion completeness: every closed node's expansion round is done. -/
def ExpInv (G : Graph Node) (st : SearchState Node) : Prop :=
  ∀ m ∈ st.closedSet, ∃ gm, st.pathCostFromStart m = some gm ∧
    ∀ nb ∈ G.neighbors m, ExpAt G st gm nb

/-- Closed nodes carry an optimal g-score. -/
def ClosedOptimal (G : Graph Node) (startNode : Node) (st : SearchState Node) : Prop :=
  ∀ u ∈ st.closedSet, ∀ c, st.pathCostFromStart u = some c →
    ∀ steps, IsPath G startNode steps u → c ≤ pathCost steps

/-- Well-formedness of one worker proposal relative to a state: it was
produced for an edge out of an already-closed node, from that node's
(frozen) g-score, with the f-cost computed from the heuristic. -/
structure ProposalWF (G : Graph Node) (h : Heuristic Node) (goalNode : Node)
    (st : SearchState Node) (p : RelaxProposal Node) : Prop where
  fromClosed : p.fromNode ∈ st.closedSet
  edge : ∃ gf nb, st.pathCostFromStart p.fromNode = some gf ∧ nb ∈ G.neighbors p.fromNode ∧
    nb.id = p.toNode ∧ p.gScore = gf + nb.cost ∧ p.fCost = p.gScore + h p.toNode goalNode

theorem startNode_mem_closed {G : Graph Node} {h : Heuristic Node}
    {startNode goalNode : Node} {st : SearchState Node}
    (hinv : Inv G h startNode goalNode st) (hne : st.closedSet ≠ []) :
    startNode ∈ st.closedSet := by
  rcases hinv.startFirst with ⟨hc, -⟩ | hhead
  · exact absurd hc hne
  · rcases hl : st.closedSet with - | ⟨a, tl⟩
    · exact absurd hl hne
    · rw [hl] at hhead
      simp only [List.head?_cons, Option.some.injEq] at hhead
      rw [← hhead]
      exact List.mem_cons_self _ _

/-- Case analysis of the relaxation rule: discarded because closed,
discarded because not an improvement, fresh push, in-place decrease-key, or
g-update without decrease-key. -/
theorem applyProposal_cases (st : SearchState Node) (p : RelaxProposal Node) :
    (p.toNode ∈ st.closedSet ∧ applyProposal st p = st) ∨
    (p.toNode ∉ st.closedSet ∧
      shouldUpdate (st.pathCostFromStart p.toNode) p.gScore = false ∧
      applyProposal st p = st) ∨
    (p.toNode ∉ st.closedSet ∧ shouldUpdate (st.pathCostFromStart p.toNode) p.gScore = true ∧
      findOpenItem st.openSet p.toNode = none ∧
      applyProposal st p =
        { st with
          pathCostFromStart := fun n =>
            if n = p.toNode then some p.gScore else st.pathCostFromStart n,
          cameFrom := fun n => if n = p.toNode then some p.fromNode else st.cameFrom n,
          openSet := st.openSet ++ [⟨p.toNode, p.gScore, p.fCost⟩] }) ∨
    (∃ item, p.toNode ∉ st.closedSet ∧
      shouldUpdate (st.pathCostFromStart p.toNode) p.gScore = true ∧
      findOpenItem st.openSet p.toNode = some item ∧ p.fCost < item.fCost ∧
      applyProposal st p =
        { st with
          pathCostFromStart := fun n =>
            if n = p.toNode then some p.gScore else st.pathCostFromStart n,
          cameFrom := fun n => if n = p.toNode then some p.fromNode else st.cameFrom n,
          openSet := st.openSet.map fun it =>
            if it.node = p.toNode then ⟨it.node, p.gScore, p.fCost⟩ else it }) ∨
    (∃ item, p.toNode ∉ st.closedSet ∧
      shouldUpdate (st.pathCostFromStart p.toNode) p.gScore = true ∧
      findOpenItem st.openSet p.toNode = some item ∧ ¬p.fCost < item.fCost ∧
      applyProposal st p =
        { st with
          pathCostFromStart := fun n =>
            if n = p.toNode then some p.gScore else st.pathCostFromStart n,
          cameFrom := fun n => if n = p.toNode then some p.fromNode else st.cameFrom n }) := by
  by_cases hc : p.toNode ∈ st.closedSet
  · exact Or.inl ⟨hc, by simp [applyProposal, hc]⟩
  by_cases hu : shouldUpdate (st.pathCostFromStart p.toNode) p.gScore = true
  · rcases hf : findOpenItem st.openSet p.toNode with - | item
    · refine Or.inr (Or.inr (Or.inl ⟨hc, hu, rfl, ?_⟩))
      simp [applyProposal, hc, hu, hf]
    · by_cases hlt : p.fCost < item.fCost
      · refine Or.inr (Or.inr (Or.inr (Or.inl ⟨item, hc, hu, rfl, hlt, ?_⟩)))
        simp [applyProposal, hc, hu, hf, hlt]
      · refine Or.inr (Or.inr (Or.inr (Or.inr ⟨item, hc, hu, rfl, hlt, ?_⟩)))
        simp [applyProposal, hc, hu, hf, hlt]
  · refine Or.inr (Or.inl ⟨hc, by simpa using hu, ?_⟩)
    simp [applyProposal, hc, hu]

theorem applyProposal_closedSet (st : SearchState Node) (p : RelaxProposal Node) :
    (applyProposal st p).closedSet = st.closedSet := by
  rcases applyProposal_cases st p with ⟨-, he⟩ | ⟨-, -, he⟩ | ⟨-, -, -, he⟩ |
    ⟨item, -, -, -, -, he⟩ | ⟨item, -, -, -, -, he⟩ <;> rw [he]

theorem applyProposal_expandedNodes (st : SearchState Node) (p : RelaxProposal Node) :
    (applyProposal st p).expandedNodes = st.expandedNodes := by
  rcases applyProposal_cases st p with ⟨-, he⟩ | ⟨-, -, he⟩ | ⟨-, -, -, he⟩ |
    ⟨item, -, -, -, -, he⟩ | ⟨item, -, -, -, -, he⟩ <;> rw [he]

theorem foldl_applyProposal_closedSet (ps : List (RelaxProposal Node)) (st : SearchState Node) :
    (ps.foldl applyProposal st).closedSet = st.closedSet := by
  induction ps generalizing st with
  | nil => rfl
  | cons p tl ih => rw [List.foldl_cons, ih, applyProposal_closedSet]

theorem foldl_applyProposal_expandedNodes (ps : List (RelaxProposal Node))
    (st : SearchState Node) :
    (ps.foldl applyProposal st).expandedNodes = st.expandedNodes := by
  induction ps generalizing st with
  | nil => rfl
  | cons p tl ih => rw [List.foldl_cons, ih, applyProposal_expandedNodes]

/-- Whenever the g-score improvement test fires for a node with a live
frontier item, the f-cost test of the decrease-key branch fires as well:
both proposal and item carry `f = g + h(node)`, so a strict g-improvement
is a strict f-improvement.  The no-decrease-key sub-branch is dead code. -/
theorem fix_branch_fires {G : Graph Node} {h : Heuristic Node} {startNode goalNode : Node}
    {st : SearchState Node} {p : RelaxProposal Node} {item : PriorityQueueItem Node}
    (hinv : Inv G h startNode goalNode st)
    (hpf : p.fCost = p.gScore + h p.toNode goalNode)
    (hu : shouldUpdate (st.pathCostFromStart p.toNode) p.gScore = true)
    (hf : findOpenItem st.openSet p.toNode = some item) : p.fCost < item.fCost := by
  obtain ⟨hmem, hnode⟩ := findOpenItem_eq_some hf
  obtain ⟨hg, hfc⟩ := hinv.sync item hmem
  rw [hnode] at hg hfc
  rw [hg] at hu
  have hlt : p.gScore < item.gScore := by simpa [shouldUpdate] using hu
  rw [hpf, hfc]
  linarith

theorem applyProposal_closed_frame (st : SearchState Node) (p : RelaxProposal Node)
    (n : Node) (hn : n ∈ st.closedSet) :
    (applyProposal st p).pathCostFromStart n = st.pathCostFromStart n ∧
    (applyProposal st p).cameFrom n = st.cameFrom n := by
  rcases applyProposal_cases st p with ⟨-, he⟩ | ⟨-, -, he⟩ | ⟨hc, -, -, he⟩ |
    ⟨item, hc, -, -, -, he⟩ | ⟨item, hc, -, -, -, he⟩ <;> rw [he]
  · exact ⟨rfl, rfl⟩
  · exact ⟨rfl, rfl⟩
  all_goals {
    have hne : n ≠ p.toNode := fun hEq => hc (hEq ▸ hn)
    exact ⟨by simp [hne], by simp [hne]⟩ }

/-- Open items survive relaxation: the node stays in the frontier and its
item g-score never increases. -/
theorem applyProposal_open_growth {G : Graph Node} {h : Heuristic Node}
    {startNode goalNode : Node} {st : SearchState Node} (p : RelaxProposal Node)
    (hinv : Inv G h startNode goalNode st) :
    ∀ it ∈ st.openSet, ∃ it' ∈ (applyProposal st p).openSet,
      it'.node = it.node ∧ it'.gScore ≤ it.gScore := by
  intro it hit
  rcases applyProposal_cases st p with ⟨-, he⟩ | ⟨-, -, he⟩ | ⟨hc, hu, hf, he⟩ |
    ⟨item, hc, hu, hf, hlt, he⟩ | ⟨item, hc, hu, hf, hnlt, he⟩ <;> rw [he]
  · exact ⟨it, hit, rfl, le_refl _⟩
  · exact ⟨it, hit, rfl, le_refl _⟩
  · exact ⟨it, List.mem_append_left _ hit, rfl, le_refl _⟩
  · by_cases hn : it.node = p.toNode
    · refine ⟨⟨it.node, p.gScore, p.fCost⟩, ?_, rfl, ?_⟩
      · have := List.mem_map_of_mem
          (fun x => if x.node = p.toNode then
            (⟨x.node, p.gScore, p.fCost⟩ : PriorityQueueItem Node) else x) hit
        simpa [hn] using this
      · obtain ⟨hg, -⟩ := hinv.sync it hit
        rw [hn] at hg
        rw [hg] at hu
        have : p.gScore < it.gScore := by simpa [shouldUpdate] using hu
        exact le_of_lt this
    · refine ⟨it, ?_, rfl, le_refl _⟩
      have := List.mem_map_of_mem
        (fun x => if x.node = p.toNode then
          (⟨x.node, p.gScore, p.fCost⟩ : PriorityQueueItem Node) else x) hit
      simpa [hn] using this
  · exact ⟨it, hit, rfl, le_refl _⟩

/-- After its proposal is applied, a dispatched neighbor is accounted for. -/
theorem applyProposal_covers {G : Graph Node} {h : Heuristic Node}
    {startNode goalNode : Node} {st : SearchState Node} {u : Node} {gu : ℚ}
    (nb : Neighbor Node) (hinv : Inv G h startNode goalNode st) :
    ExpAt G (applyProposal st
      ⟨u, nb.id, gu + nb.cost, gu + nb.cost + h nb.id goalNode⟩) gu nb := by
  set p : RelaxProposal Node := ⟨u, nb.id, gu + nb.cost, gu + nb.cost + h nb.id goalNode⟩
  have hpto : p.toNode = nb.id := rfl
  rcases applyProposal_cases st p with ⟨hc, he⟩ | ⟨hc, hu, he⟩ | ⟨hc, hu, hf, he⟩ |
    ⟨item, hc, hu, hf, hlt, he⟩ | ⟨item, hc, hu, hf, hnlt, he⟩ <;> rw [he]
  · exact Or.inl hc
  · rcases hg : st.pathCostFromStart p.toNode with - | curG
    · rw [hg] at hu
      simp [shouldUpdate] at hu
    · have hle : curG ≤ p.gScore := by
        rw [hg] at hu
        simpa [shouldUpdate] using hu
      rcases hinv.gDomain _ _ hg with hcl | ⟨it, hit, hnode⟩
      · exact Or.inl hcl
      · obtain ⟨hgit, -⟩ := hinv.sync it hit
        rw [hnode] at hgit
        rw [hg] at hgit
        refine Or.inr ⟨it, hit, hnode, ?_⟩
        rw [Option.some_inj] at hgit
        rw [hgit] at hle
        exact hle
  · exact Or.inr ⟨⟨p.toNode, p.gScore, p.fCost⟩,
      List.mem_append_right _ (List.mem_cons_self _ _), hpto, le_refl _⟩
  · obtain ⟨hmem, hnode⟩ := findOpenItem_eq_some hf
    refine Or.inr ⟨⟨item.node, p.gScore, p.fCost⟩, ?_, by rw [hnode, hpto], le_refl _⟩
    have := List.mem_map_of_mem
      (fun x => if x.node = p.toNode then
        (⟨x.node, p.gScore, p.fCost⟩ : PriorityQueueItem Node) else x) hmem
    simpa [hnode] using this
  · exact absurd (fix_branch_fires hinv rfl hu hf) hnlt

theorem applyProposal_inv_push {G : Graph Node} {h : Heuristic Node}
    {startNode goalNode : Node} {st : SearchState Node} {p : RelaxProposal Node}
    {gf : ℚ} {nbe : Neighbor Node}
    (hinv : Inv G h startNode goalNode st) (hfromCl : p.fromNode ∈ st.closedSet)
    (hgf : st.pathCostFromStart p.fromNode = some gf) (hnbe : nbe ∈ G.neighbors p.fromNode)
    (hnbid : nbe.id = p.toNode) (hpg : p.gScore = gf + nbe.cost)
    (hpf : p.fCost = p.gScore + h p.toNode goalNode)
    (hstartClosed : startNode ∈ st.closedSet)
    (hc : p.toNode ∉ st.closedSet) (hne : ∀ it ∈ st.openSet, it.node ≠ p.toNode) :
    Inv G h startNode goalNode
      { st with
        pathCostFromStart := fun n =>
          if n = p.toNode then some p.gScore else st.pathCostFromStart n,
        cameFrom := fun n => if n = p.toNode then some p.fromNode else st.cameFrom n,
        openSet := st.openSet ++ [⟨p.toNode, p.gScore, p.fCost⟩] } := by
  have htoStart : p.toNode ≠ startNode := fun hEq => hc (hEq ▸ hstartClosed)
  have hfromNe : p.fromNode ≠ p.toNode := fun hEq => hc (hEq ▸ hfromCl)
  have hclosedNe : st.closedSet ≠ [] := List.ne_nil_of_mem hstartClosed
  exact {
    openNodup := by
      simp only [List.map_append, List.map_cons, List.map_nil]
      rw [List.nodup_append]
      refine ⟨hinv.openNodup, List.nodup_singleton _, ?_⟩
      intro n hn hn'
      simp only [List.mem_singleton] at hn'
      obtain ⟨it, hit, rfl⟩ := List.mem_map.mp hn
      exact hne it hit hn'
    closedNodup := hinv.closedNodup
    openClosedDisjoint := by
      intro it hit
      rcases List.mem_append.mp hit with h1 | h2
      · exact hinv.openClosedDisjoint it h1
      · simp only [List.mem_singleton] at h2
        rw [h2]
        exact hc
    sync := by
      intro it hit
      rcases List.mem_append.mp hit with h1 | h2
      · have hn' := hne it h1
        obtain ⟨hg, hfc⟩ := hinv.sync it h1
        exact ⟨by simp only [if_neg hn']; exact hg, hfc⟩
      · simp only [List.mem_singleton] at h2
        rw [h2]
        exact ⟨by simp, hpf⟩
    closedHasG := by
      intro n hn
      have hn' : n ≠ p.toNode := fun hEq => hc (hEq ▸ hn)
      obtain ⟨c, hcg⟩ := hinv.closedHasG n hn
      exact ⟨c, by simp only [if_neg hn']; exact hcg⟩
    gDomain := by
      intro n c hg'
      by_cases hn : n = p.toNode
      · exact Or.inr ⟨⟨p.toNode, p.gScore, p.fCost⟩,
          List.mem_append_right _ (List.mem_cons_self _ _), hn.symm⟩
      · simp only [if_neg hn] at hg'
        rcases hinv.gDomain n c hg' with hcl | ⟨it, hit, hnd⟩
        · exact Or.inl hcl
        · exact Or.inr ⟨it, List.mem_append_left _ hit, hnd⟩
    sound := by
      intro n c hg'
      by_cases hn : n = p.toNode
      · simp only [if_pos hn] at hg'
        rw [Option.some_inj] at hg'
        obtain ⟨steps, hsp, hsc⟩ := hinv.sound _ _ hgf
        refine ⟨steps ++ [nbe], ?_, ?_⟩
        · have := hsp.trans (IsPath.single hnbe)
          rw [hnbid] at this
          rw [hn]
          exact this
        · simp only [pathCost_append, pathCost_cons, pathCost_nil, hsc]
          rw [← hg', hpg]
          ring
      · simp only [if_neg hn] at hg'
        exact hinv.sound n c hg'
    startG := by
      simp only [if_neg htoStart.symm]
      exact hinv.startG
    startCame := by
      simp only [if_neg htoStart.symm]
      exact hinv.startCame
    startFirst := by
      right
      rcases hinv.startFirst with ⟨hc0, -⟩ | hhead
      · exact absurd hc0 hclosedNe
      · exact hhead
    startAvail := fun hns => absurd hstartClosed hns
    cameClosed := by
      intro n m hcm
      by_cases hn : n = p.toNode
      · simp only [if_pos hn] at hcm
        rw [Option.some_inj] at hcm
        rw [← hcm]
        refine ⟨hfromCl, gf, nbe, ?_, hnbe, by rw [hnbid, hn], ?_⟩
        · simp only [if_neg hfromNe]
          exact hgf
        · simp only [if_pos hn, hpg]
      · simp only [if_neg hn] at hcm
        obtain ⟨hmcl, gm, nb', hgm, hnb', hnb'id, hgn⟩ := hinv.cameClosed n m hcm
        have hmne : m ≠ p.toNode := fun hEq => hc (hEq ▸ hmcl)
        exact ⟨hmcl, gm, nb', by simp only [if_neg hmne]; exact hgm, hnb', hnb'id,
          by simp only [if_neg hn]; exact hgn⟩
    cameOpen := by
      intro it hit hns
      rcases List.mem_append.mp hit with h1 | h2
      · have hn' := hne it h1
        simp only [if_neg hn']
        exact hinv.cameOpen it h1 hns
      · simp only [List.mem_singleton] at h2
        rw [h2]
        simp
    cameClosedTotal := by
      intro n hn hns
      have hn' : n ≠ p.toNode := fun hEq => hc (hEq ▸ hn)
      simp only [if_neg hn']
      exact hinv.cameClosedTotal n hn hns
    cameOrder := by
      intro n m hcm hn
      have hn' : n ≠ p.toNode := fun hEq => hc (hEq ▸ hn)
      simp only [if_neg hn'] at hcm
      exact hinv.cameOrder n m hcm hn }

theorem applyProposal_inv_fix {G : Graph Node} {h : Heuristic Node}
    {startNode goalNode : Node} {st : SearchState Node} {p : RelaxProposal Node}
    {gf : ℚ} {nbe : Neighbor Node} {item : PriorityQueueItem Node}
    (hinv : Inv G h startNode goalNode st) (hfromCl : p.fromNode ∈ st.closedSet)
    (hgf : st.pathCostFromStart p.fromNode = some gf) (hnbe : nbe ∈ G.neighbors p.fromNode)
    (hnbid : nbe.id = p.toNode) (hpg : p.gScore = gf + nbe.cost)
    (hpf : p.fCost = p.gScore + h p.toNode goalNode)
    (hstartClosed : startNode ∈ st.closedSet)
    (hc : p.toNode ∉ st.closedSet)
    (hfind : findOpenItem st.openSet p.toNode = some item) :
    Inv G h startNode goalNode
      { st with
        pathCostFromStart := fun n =>
          if n = p.toNode then some p.gScore else st.pathCostFromStart n,
        cameFrom := fun n => if n = p.toNode then some p.fromNode else st.cameFrom n,
        openSet := st.openSet.map fun it =>
          if it.node = p.toNode then ⟨it.node, p.gScore, p.fCost⟩ else it } := by
  have htoStart : p.toNode ≠ startNode := fun hEq => hc (hEq ▸ hstartClosed)
  have hfromNe : p.fromNode ≠ p.toNode := fun hEq => hc (hEq ▸ hfromCl)
  have hclosedNe : st.closedSet ≠ [] := List.ne_nil_of_mem hstartClosed
  have hnodes : ∀ it : PriorityQueueItem Node,
      ((fun it => if it.node = p.toNode then
        (⟨it.node, p.gScore, p.fCost⟩ : PriorityQueueItem Node) else it) it).node = it.node := by
    intro it
    by_cases hn : it.node = p.toNode <;> simp [hn]
  have hmapNodes : (st.openSet.map fun it =>
      if it.node = p.toNode then
        (⟨it.node, p.gScore, p.fCost⟩ : PriorityQueueItem Node) else it).map
        PriorityQueueItem.node = st.openSet.map PriorityQueueItem.node := by
    rw [List.map_map]
    exact List.map_congr_left fun it _ => hnodes it
  exact {
    openNodup := by
      rw [hmapNodes]
      exact hinv.openNodup
    closedNodup := hinv.closedNodup
    openClosedDisjoint := by
      intro it' hit'
      obtain ⟨it, hit, rfl⟩ := List.mem_map.mp hit'
      rw [hnodes it]
      exact hinv.openClosedDisjoint it hit
    sync := by
      intro it' hit'
      obtain ⟨it, hit, rfl⟩ := List.mem_map.mp hit'
      by_cases hn : it.node = p.toNode
      · simp only [if_pos hn]
        refine ⟨?_, ?_⟩
        · simp only [hn, if_pos rfl]
        · simp only [hn]
          exact hpf
      · simp only [if_neg hn]
        obtain ⟨hg, hfc⟩ := hinv.sync it hit
        exact ⟨hg, hfc⟩
    closedHasG := by
      intro n hn
      have hn' : n ≠ p.toNode := fun hEq => hc (hEq ▸ hn)
      obtain ⟨c, hcg⟩ := hinv.closedHasG n hn
      exact ⟨c, by simp only [if_neg hn']; exact hcg⟩
    gDomain := by
      intro n c hg'
      by_cases hn : n = p.toNode
      · obtain ⟨hmem, hnodeEq⟩ := findOpenItem_eq_some hfind
        refine Or.inr ⟨⟨item.node, p.gScore, p.fCost⟩, ?_, by rw [hnodeEq, hn]⟩
        have := List.mem_map_of_mem
          (fun it => if it.node = p.toNode then
            (⟨it.node, p.gScore, p.fCost⟩ : PriorityQueueItem Node) else it) hmem
        simpa [hnodeEq] using this
      · simp only [if_neg hn] at hg'
        rcases hinv.gDomain n c hg' with hcl | ⟨it, hit, hnd⟩
        · exact Or.inl hcl
        · refine Or.inr ⟨(fun it => if it.node = p.toNode then
            (⟨it.node, p.gScore, p.fCost⟩ : PriorityQueueItem Node) else it) it,
            List.mem_map_of_mem _ hit, ?_⟩
          rw [hnodes it]
          exact hnd
    sound := by
      intro n c hg'
      by_cases hn : n = p.toNode
      · simp only [if_pos hn] at hg'
        rw [Option.some_inj] at hg'
        obtain ⟨steps, hsp, hsc⟩ := hinv.sound _ _ hgf
        refine ⟨steps ++ [nbe], ?_, ?_⟩
        · have := hsp.trans (IsPath.single hnbe)
          rw [hnbid] at this
          rw [hn]
          exact this
        · simp only [pathCost_append, pathCost_cons, pathCost_nil, hsc]
          rw [← hg', hpg]
          ring
      · simp only [if_neg hn] at hg'
        exact hinv.sound n c hg'
    startG := by
      simp only [if_neg htoStart.symm]
      exact hinv.startG
    startCame := by
      simp only [if_neg htoStart.symm]
      exact hinv.startCame
    startFirst := by
      right
      rcases hinv.startFirst with ⟨hc0, -⟩ | hhead
      · exact absurd hc0 hclosedNe
      · exact hhead
    startAvail := fun hns => absurd hstartClosed hns
    cameClosed := by
      intro n m hcm
      by_cases hn : n = p.toNode
      · simp only [if_pos hn] at hcm
        rw [Option.some_inj] at hcm
        rw [← hcm]
        refine ⟨hfromCl, gf, nbe, ?_, hnbe, by rw [hnbid, hn], ?_⟩
        · simp only [if_neg hfromNe]
          exact hgf
        · simp only [if_pos hn, hpg]
      · simp only [if_neg hn] at hcm
        obtain ⟨hmcl, gm, nb', hgm, hnb', hnb'id, hgn⟩ := hinv.cameClosed n m hcm
        have hmne : m ≠ p.toNode := fun hEq => hc (hEq ▸ hmcl)
        exact ⟨hmcl, gm, nb', by simp only [if_neg hmne]; exact hgm, hnb', hnb'id,
          by simp only [if_neg hn]; exact hgn⟩
    cameOpen := by
      intro it' hit' hns
      obtain ⟨it, hit, rfl⟩ := List.mem_map.mp hit'
      rw [hnodes it] at hns ⊢
      by_cases hn : it.node = p.toNode
      · simp only [if_pos hn]
        simp
      · simp only [if_neg hn]
        exact hinv.cameOpen it hit hns
    cameClosedTotal := by
      intro n hn hns
      have hn' : n ≠ p.toNode := fun hEq => hc (hEq ▸ hn)
      simp only [if_neg hn']
      exact hinv.cameClosedTotal n hn hns
    cameOrder := by
      intro n m hcm hn
      have hn' : n ≠ p.toNode := fun hEq => hc (hEq ▸ hn)
      simp only [if_neg hn'] at hcm
      exact hinv.cameOrder n m hcm hn }

/-- Relaxation preserves the base invariant. -/
theorem applyProposal_inv {G : Graph Node} {h : Heuristic Node} {startNode goalNode : Node}
    {st : SearchState Node} {p : RelaxProposal Node}
    (hinv : Inv G h startNode goalNode st) (hwf : ProposalWF G h goalNode st p) :
    Inv G h startNode goalNode (applyProposal st p) := by
  obtain ⟨gf, nbe, hgf, hnbe, hnbid, hpg, hpf⟩ := hwf.edge
  have hfromCl : p.fromNode ∈ st.closedSet := hwf.fromClosed
  have hclosedNe : st.closedSet ≠ [] := List.ne_nil_of_mem hfromCl
  have hstartClosed : startNode ∈ st.closedSet := startNode_mem_closed hinv hclosedNe
  rcases applyProposal_cases st p with ⟨-, he⟩ | ⟨-, -, he⟩ | ⟨hc, hu, hf, he⟩ |
    ⟨item, hc, hu, hf, hlt, he⟩ | ⟨item, hc, hu, hf, hnlt, he⟩
  · rw [he]; exact hinv
  · rw [he]; exact hinv
  · rw [he]
    exact applyProposal_inv_push hinv hfromCl hgf hnbe hnbid hpg hpf hstartClosed hc
      ((findOpenItem_eq_none_iff _ _).mp hf)
  · rw [he]
    exact applyProposal_inv_fix hinv hfromCl hgf hnbe hnbid hpg hpf hstartClosed hc hf
  · exact absurd (fix_branch_fires hinv hpf hu hf) hnlt

/-- `ExpAt` facts are stable under relaxation. -/
theorem applyProposal_expAt_stable {G : Graph Node} {h : Heuristic Node}
    {startNode goalNode : Node} {st : SearchState Node} (p : RelaxProposal Node)
    (hinv : Inv G h startNode goalNode st) {gm : ℚ} {nb : Neighbor Node}
    (hx : ExpAt G st gm nb) : ExpAt G (applyProposal st p) gm nb := by
  rcases hx with hcl | ⟨it, hit, hnode, hle⟩
  · exact Or.inl (by rw [applyProposal_closedSet]; exact hcl)
  · obtain ⟨it', hit', hnode', hle'⟩ := applyProposal_open_growth p hinv it hit
    exact Or.inr ⟨it', hit', by rw [hnode', hnode], le_trans hle' hle⟩

/-- Folding one full expansion round for closed node `u`: the invariant is
preserved, closed nodes' g-scores and predecessors are frozen, accounted
neighbors stay accounted, and every dispatched neighbor ends accounted. -/
theorem foldl_proposals_inv {G : Graph Node} {h : Heuristic Node}
    {startNode goalNode : Node} {u : Node} {gu : ℚ} (nbs : List (Neighbor Node)) :
    ∀ st : SearchState Node, Inv G h startNode goalNode st → u ∈ st.closedSet →
      st.pathCostFromStart u = some gu → (∀ nb ∈ nbs, nb ∈ G.neighbors u) →
      Inv G h startNode goalNode ((proposalsFor h goalNode u gu nbs).foldl applyProposal st) ∧
      (∀ n ∈ st.closedSet,
        ((proposalsFor h goalNode u gu nbs).foldl applyProposal st).pathCostFromStart n =
          st.pathCostFromStart n ∧
        ((proposalsFor h goalNode u gu nbs).foldl applyProposal st).cameFrom n =
          st.cameFrom n) ∧
      (∀ (gm : ℚ) (nb₀ : Neighbor Node), ExpAt G st gm nb₀ →
        ExpAt G ((proposalsFor h goalNode u gu nbs).foldl applyProposal st) gm nb₀) ∧
      (∀ nb ∈ nbs, ExpAt G ((proposalsFor h goalNode u gu nbs).foldl applyProposal st) gu nb) := by
  induction nbs with
  | nil =>
    intro st hinv hu hgu hsub
    exact ⟨hinv, fun n _ => ⟨rfl, rfl⟩, fun _ _ hx => hx, by simp⟩
  | cons nb tl ih =>
    intro st hinv hu hgu hsub
    have hnbu : nb ∈ G.neighbors u := hsub nb (List.mem_cons_self _ _)
    have hwf : ProposalWF G h goalNode st
        ⟨u, nb.id, gu + nb.cost, gu + nb.cost + h nb.id goalNode⟩ :=
      ⟨hu, gu, nb, hgu, hnbu, rfl, rfl, rfl⟩
    have hstep := applyProposal_inv hinv hwf
    have hcov : ExpAt G (applyProposal st
        ⟨u, nb.id, gu + nb.cost, gu + nb.cost + h nb.id goalNode⟩) gu nb :=
      applyProposal_covers nb hinv
    have hfold : (proposalsFor h goalNode u gu (nb :: tl)).foldl applyProposal st =
        (proposalsFor h goalNode u gu tl).foldl applyProposal
          (applyProposal st ⟨u, nb.id, gu + nb.cost, gu + nb.cost + h nb.id goalNode⟩) := rfl
    rw [hfold]
    have hu' : u ∈ (applyProposal st
        ⟨u, nb.id, gu + nb.cost, gu + nb.cost + h nb.id goalNode⟩).closedSet := by
      rw [applyProposal_closedSet]; exact hu
    have hgu' : (applyProposal st
        ⟨u, nb.id, gu + nb.cost, gu + nb.cost + h nb.id goalNode⟩).pathCostFromStart u =
        some gu := by
      rw [(applyProposal_closed_frame st _ u hu).1]; exact hgu
    obtain ⟨hinv', hframe', hstable', hcovtl⟩ := ih _ hstep hu' hgu'
      (fun nb' hnb' => hsub nb' (List.mem_cons_of_mem _ hnb'))
    refine ⟨hinv', ?_, ?_, ?_⟩
    · intro n hn
      have h1 := applyProposal_closed_frame st
        ⟨u, nb.id, gu + nb.cost, gu + nb.cost + h nb.id goalNode⟩ n hn
      have h2 := hframe' n (by rw [applyProposal_closedSet]; exact hn)
      exact ⟨h2.1.trans h1.1, h2.2.trans h1.2⟩
    · intro gm nb₀ hx
      exact hstable' gm nb₀ (applyProposal_expAt_stable _ hinv hx)
    · intro nb' hnb'
      rcases List.mem_cons.mp hnb' with rfl | hnb'
      · exact hstable' gu nb' hcov
      · exact hcovtl nb' hnb'

/-- Popping the minimum-f item and closing its node preserves the base
invariant (for any value of the expansion counter, which `Search`
increments and the `Stepper` does not track). -/
theorem popClose_inv {G : Graph Node} {h : Heuristic Node} {startNode goalNode : Node}
    {st : SearchState Node} {uIt : PriorityQueueItem Node}
    {rest : List (PriorityQueueItem Node)}
    (hinv : Inv G h startNode goalNode st)
    (hpop : popMin st.openSet = some (uIt, rest)) (exp' : ℕ) :
    Inv G h startNode goalNode
      { st with openSet := rest, closedSet := st.closedSet ++ [uIt.node],
                expandedNodes := exp' } := by
  have hperm := popMin_perm hpop
  have hpermN : (st.openSet.map PriorityQueueItem.node).Perm
      (uIt.node :: rest.map PriorityQueueItem.node) := by
    simpa using hperm.map PriorityQueueItem.node
  have hnodup : (uIt.node :: rest.map PriorityQueueItem.node).Nodup :=
    hpermN.nodup_iff.mp hinv.openNodup
  have huNotRest : uIt.node ∉ rest.map PriorityQueueItem.node :=
    (List.nodup_cons.mp hnodup).1
  have hrestNodup : (rest.map PriorityQueueItem.node).Nodup :=
    (List.nodup_cons.mp hnodup).2
  have huOpen : uIt ∈ st.openSet := popMin_mem hpop
  have hrestMem : ∀ it ∈ rest, it ∈ st.openSet := popMin_rest_subset hpop
  have huNotCl : uIt.node ∉ st.closedSet := hinv.openClosedDisjoint uIt huOpen
  have hmemSplit : ∀ it ∈ st.openSet, it = uIt ∨ it ∈ rest := by
    intro it hit
    have := hperm.mem_iff.mp hit
    exact List.mem_cons.mp this
  have hrestNe : ∀ it ∈ rest, it.node ≠ uIt.node := by
    intro it hit hEq
    exact huNotRest (hEq ▸ List.mem_map_of_mem PriorityQueueItem.node hit)
  exact {
    openNodup := hrestNodup
    closedNodup := by
      rw [List.nodup_append]
      exact ⟨hinv.closedNodup, List.nodup_singleton _,
        fun n hn hn' => huNotCl ((List.mem_singleton.mp hn') ▸ hn)⟩
    openClosedDisjoint := by
      intro it hit hmem
      rcases List.mem_append.mp hmem with hcl | hsing
      · exact hinv.openClosedDisjoint it (hrestMem it hit) hcl
      · exact hrestNe it hit (List.mem_singleton.mp hsing)
    sync := fun it hit => hinv.sync it (hrestMem it hit)
    closedHasG := by
      intro n hn
      rcases List.mem_append.mp hn with hcl | hsing
      · exact hinv.closedHasG n hcl
      · rw [List.mem_singleton.mp hsing]
        exact ⟨uIt.gScore, (hinv.sync uIt huOpen).1⟩
    gDomain := by
      intro n c hg
      rcases hinv.gDomain n c hg with hcl | ⟨it, hit, hnd⟩
      · exact Or.inl (List.mem_append_left _ hcl)
      · rcases hmemSplit it hit with rfl | hit'
        · exact Or.inl (List.mem_append_right _ (by rw [hnd]; exact List.mem_cons_self _ _))
        · exact Or.inr ⟨it, hit', hnd⟩
    sound := hinv.sound
    startG := hinv.startG
    startCame := hinv.startCame
    startFirst := by
      right
      rcases hinv.startFirst with ⟨hcl, hmap⟩ | hhead
      · have : (uIt.node :: rest.map PriorityQueueItem.node) = [startNode] := by
          rw [hmap] at hpermN
          exact (List.singleton_perm.mp hpermN).symm
        have huStart : uIt.node = startNode := by
          have := congrArg List.head? this
          simpa using this
        rw [hcl, huStart]
        rfl
      · rcases hl : st.closedSet with - | ⟨a, tl⟩
        · rw [hl] at hhead
          cases hhead
        · rw [hl] at hhead
          simp only [List.head?_cons, Option.some.injEq] at hhead
          rw [← hhead]
          rfl
    startAvail := by
      intro hns
      have hns1 : startNode ∉ st.closedSet := fun hcl => hns (List.mem_append_left _ hcl)
      have hns2 : startNode ≠ uIt.node := by
        intro hEq
        exact hns (List.mem_append_right _ (by rw [hEq]; exact List.mem_cons_self _ _))
      obtain ⟨it, hit, hnd, hg0⟩ := hinv.startAvail hns1
      rcases hmemSplit it hit with rfl | hit'
      · exact absurd hnd.symm hns2
      · exact ⟨it, hit', hnd, hg0⟩
    cameClosed := by
      intro n m hcm
      obtain ⟨hmcl, gm, nb, hgm, hnb, hnbid, hgn⟩ := hinv.cameClosed n m hcm
      exact ⟨List.mem_append_left _ hmcl, gm, nb, hgm, hnb, hnbid, hgn⟩
    cameOpen := fun it hit => hinv.cameOpen it (hrestMem it hit)
    cameClosedTotal := by
      intro n hn hns
      rcases List.mem_append.mp hn with hcl | hsing
      · exact hinv.cameClosedTotal n hcl hns
      · rw [List.mem_singleton.mp hsing]
        rw [List.mem_singleton.mp hsing] at hns
        exact hinv.cameOpen uIt huOpen hns
    cameOrder := by
      intro n m hcm hn
      have hmcl : m ∈ st.closedSet := (hinv.cameClosed n m hcm).1
      have hmIdx : (st.closedSet ++ [uIt.node]).indexOf m = st.closedSet.indexOf m :=
        List.indexOf_append_of_mem hmcl
      rcases List.mem_append.mp hn with hcl | hsing
      · have hnIdx : (st.closedSet ++ [uIt.node]).indexOf n = st.closedSet.indexOf n :=
          List.indexOf_append_of_mem hcl
        rw [hmIdx, hnIdx]
        exact hinv.cameOrder n m hcm hcl
      · have hnu : n = uIt.node := List.mem_singleton.mp hsing
        have hnNot : n ∉ st.closedSet := by rw [hnu]; exact huNotCl
        have hnIdx : (st.closedSet ++ [uIt.node]).indexOf n =
            st.closedSet.length + ([uIt.node].indexOf n) :=
          List.indexOf_append_of_not_mem hnNot
        rw [hmIdx, hnIdx, hnu, List.indexOf_cons_self]
        have := List.indexOf_lt_length.mpr hmcl
        omega }

/-- Accounted neighbors remain accounted across a pop-and-close step. -/
theorem popClose_expAt_stable {G : Graph Node} {st : SearchState Node}
    {uIt : PriorityQueueItem Node} {rest : List (PriorityQueueItem Node)}
    (hpop : popMin st.openSet = some (uIt, rest)) (exp' : ℕ)
    {gm : ℚ} {nb : Neighbor Node} (hx : ExpAt G st gm nb) :
    ExpAt G { st with openSet := rest, closedSet := st.closedSet ++ [uIt.node],
                      expandedNodes := exp' } gm nb := by
  rcases hx with hcl | ⟨it, hit, hnd, hle⟩
  · exact Or.inl (List.mem_append_left _ hcl)
  · have hperm := popMin_perm hpop
    rcases List.mem_cons.mp (hperm.mem_iff.mp hit) with rfl | hit'
    · exact Or.inl (List.mem_append_right _ (by rw [← hnd]; exact List.mem_cons_self _ _))
    · exact Or.inr ⟨it, hit', hnd, hle⟩

/-- One full orchestrator iteration (pop, close, expand, relax) preserves
the base invariant and expansion completeness. -/
theorem iterate_inv {G : Graph Node} {h : Heuristic Node} {startNode goalNode : Node}
    {st : SearchState Node} {uIt : PriorityQueueItem Node}
    {rest : List (PriorityQueueItem Node)}
    (hinv : Inv G h startNode goalNode st) (hexp : ExpInv G st)
    (hpop : popMin st.openSet = some (uIt, rest)) (exp' : ℕ) :
    Inv G h startNode goalNode
      ((proposalsFor h goalNode uIt.node uIt.gScore (G.neighbors uIt.node)).foldl
        applyProposal
        { st with openSet := rest, closedSet := st.closedSet ++ [uIt.node],
                  expandedNodes := exp' }) ∧
    ExpInv G
      ((proposalsFor h goalNode uIt.node uIt.gScore (G.neighbors uIt.node)).foldl
        applyProposal
        { st with openSet := rest, closedSet := st.closedSet ++ [uIt.node],
                  expandedNodes := exp' }) ∧
    (∀ n ∈ st.closedSet ++ [uIt.node],
      ((proposalsFor h goalNode uIt.node uIt.gScore (G.neighbors uIt.node)).foldl
        applyProposal
        { st with openSet := rest, closedSet := st.closedSet ++ [uIt.node],
                  expandedNodes := exp' }).pathCostFromStart n = st.pathCostFromStart n) := by
  have hinv2 := popClose_inv hinv hpop exp'
  have hu2 : uIt.node ∈ (st.closedSet ++ [uIt.node]) :=
    List.mem_append_right _ (List.mem_cons_self _ _)
  have hgu : st.pathCostFromStart uIt.node = some uIt.gScore :=
    (hinv.sync uIt (popMin_mem hpop)).1
  obtain ⟨hinv3, hframe3, hstable3, hcov3⟩ :=
    foldl_proposals_inv (G.neighbors uIt.node)
      { st with openSet := rest, closedSet := st.closedSet ++ [uIt.node],
                expandedNodes := exp' }
      hinv2 hu2 hgu (fun _ hm => hm)
  refine ⟨hinv3, ?_, ?_⟩
  · intro m hm
    rw [foldl_applyProposal_closedSet] at hm
    rcases List.mem_append.mp hm with hmcl | hmu
    · obtain ⟨gm, hgm, hcov⟩ := hexp m hmcl
      refine ⟨gm, ?_, ?_⟩
      · rw [(hframe3 m (List.mem_append_left _ hmcl)).1]
        exact hgm
      · intro nb hnb
        exact hstable3 gm nb (popClose_expAt_stable hpop exp' (hcov nb hnb))
    · rw [List.mem_singleton.mp hmu]
      refine ⟨uIt.gScore, ?_, ?_⟩
      · rw [(hframe3 uIt.node hu2).1]
        exact hgu
      · intro nb hnb
        exact hcov3 nb hnb
  · intro n hn
    exact (hframe3 n hn).1

/-- `ClosedOptimal` transfers across state changes that freeze the closed
set and its g-scores. -/
theorem closedOptimal_congr {G : Graph Node} {startNode : Node}
    {st st' : SearchState Node}
    (hcl : st'.closedSet = st.closedSet)
    (hg : ∀ n ∈ st.closedSet, st'.pathCostFromStart n = st.pathCostFromStart n)
    (hopt : ClosedOptimal G startNode st) : ClosedOptimal G startNode st' := by
  intro u hu c hgc steps hsteps
  rw [hcl] at hu
  rw [hg u hu] at hgc
  exact hopt u hu c hgc steps hsteps

/-- The frontier-crossing lemma: every path from the start to a non-closed
node passes through a frontier item whose g-score is at most the cost of
the path prefix reaching it. -/
theorem frontier_crossing {G : Graph Node} {h : Heuristic Node}
    {startNode goalNode : Node} {st : SearchState Node}
    (hinv : Inv G h startNode goalNode st) (hexp : ExpInv G st)
    (hopt : ClosedOptimal G startNode st) :
    ∀ (steps : List (Neighbor Node)) (z : Node), IsPath G startNode steps z →
      z ∉ st.closedSet →
    ∃ it ∈ st.openSet, ∃ pre suf, steps = pre ++ suf ∧
      IsPath G startNode pre it.node ∧ IsPath G it.node suf z ∧
      it.gScore ≤ pathCost pre := by
  intro steps
  induction steps using List.reverseRecOn with
  | nil =>
    intro z hp hz
    have hzs : startNode = z := hp.nil_eq
    obtain ⟨it, hit, hnd, hg0⟩ := hinv.startAvail (hzs ▸ hz)
    exact ⟨it, hit, [], [], rfl, by rw [hnd]; exact IsPath.nil _,
      by rw [hnd, hzs]; exact IsPath.nil _, by simp [hg0]⟩
  | append_singleton init nb ih =>
    intro z hp hz
    obtain ⟨m, hm, hnbm, hnbid⟩ := hp.snoc_inv
    by_cases hmcl : m ∈ st.closedSet
    · obtain ⟨gm, hgm, hcov⟩ := hexp m hmcl
      rcases hcov nb hnbm with hcl | ⟨it, hit, hnd, hle⟩
      · exact absurd (hnbid ▸ hcl) hz
      · refine ⟨it, hit, init ++ [nb], [], by simp, ?_, ?_, ?_⟩
        · rw [hnd]
          exact hm.trans (IsPath.single hnbm)
        · rw [hnd, hnbid]
          exact IsPath.nil _
        · have hoptm : gm ≤ pathCost init := hopt m hmcl gm hgm init hm
          simp only [pathCost_append, pathCost_cons, pathCost_nil]
          linarith
    · obtain ⟨it, hit, pre, suf, hsplit, hpre, hsuf, hcost⟩ := ih m hm hmcl
      refine ⟨it, hit, pre, suf ++ [nb], by rw [hsplit, List.append_assoc], hpre, ?_, hcost⟩
      have := hsuf.trans (IsPath.single hnbm)
      rw [hnbid] at this
      exact this

/-- With a consistent heuristic, closing the popped minimum-f node keeps
every closed g-score optimal. -/
theorem popClose_closedOptimal {G : Graph Node} {h : Heuristic Node}
    {startNode goalNode : Node} {st : SearchState Node}
    {uIt : PriorityQueueItem Node} {rest : List (PriorityQueueItem Node)}
    (hcons : Consistent G h goalNode)
    (hinv : Inv G h startNode goalNode st) (hexp : ExpInv G st)
    (hopt : ClosedOptimal G startNode st)
    (hpop : popMin st.openSet = some (uIt, rest)) (exp' : ℕ) :
    ClosedOptimal G startNode
      { st with openSet := rest, closedSet := st.closedSet ++ [uIt.node],
                expandedNodes := exp' } := by
  intro u hu c hgc steps hsteps
  rcases List.mem_append.mp hu with hcl | hsing
  · exact hopt u hcl c hgc steps hsteps
  · have huEq : u = uIt.node := List.mem_singleton.mp hsing
    subst huEq
    obtain ⟨hguu, hfuu⟩ := hinv.sync uIt (popMin_mem hpop)
    have hcEq : c = uIt.gScore := by
      have hgc' : st.pathCostFromStart uIt.node = some c := hgc
      rw [hguu] at hgc'
      exact (Option.some_inj.mp hgc').symm
    have huNotCl : uIt.node ∉ st.closedSet :=
      hinv.openClosedDisjoint uIt (popMin_mem hpop)
    obtain ⟨it, hit, pre, suf, hsplit, hpre, hsuf, hcost⟩ :=
      frontier_crossing hinv hexp hopt steps uIt.node hsteps huNotCl
    have hmin : uIt.fCost ≤ it.fCost := popMin_min hpop it hit
    obtain ⟨hgit, hfit⟩ := hinv.sync it hit
    have htel : h it.node goalNode ≤ pathCost suf + h uIt.node goalNode :=
      consistent_telescope hcons hsuf
    rw [hcEq, hsplit, pathCost_append]
    linarith

theorem initState_inv {G : Graph Node} (h : Heuristic Node) (startNode goalNode : Node) :
    Inv G h startNode goalNode (initState h startNode goalNode) := by
  refine {
    openNodup := by simp [initState]
    closedNodup := List.nodup_nil
    openClosedDisjoint := by simp [initState]
    sync := ?_
    closedHasG := by simp [initState]
    gDomain := ?_
    sound := ?_
    startG := by simp [initState]
    startCame := rfl
    startFirst := Or.inl ⟨rfl, by simp [initState]⟩
    startAvail := fun _ => ⟨⟨startNode, 0, h startNode goalNode⟩, by simp [initState], rfl, rfl⟩
    cameClosed := by
      intro n m hcm
      cases hcm
    cameOpen := ?_
    cameClosedTotal := by simp [initState]
    cameOrder := by
      intro n m hcm
      cases hcm }
  · intro it hit
    simp only [initState, List.mem_singleton] at hit
    rw [hit]
    exact ⟨by simp [initState], by simp⟩
  · intro n c hg
    simp only [initState] at hg
    by_cases hn : n = startNode
    · exact Or.inr ⟨⟨startNode, 0, h startNode goalNode⟩, by simp [initState], hn.symm⟩
    · rw [if_neg hn] at hg
      cases hg
  · intro n c hg
    simp only [initState] at hg
    by_cases hn : n = startNode
    · rw [if_pos hn] at hg
      rw [Option.some_inj] at hg
      exact ⟨[], by rw [hn]; exact IsPath.nil _, by rw [← hg]; rfl⟩
    · rw [if_neg hn] at hg
      cases hg
  · intro it hit hns
    simp only [initState, List.mem_singleton] at hit
    rw [hit] at hns
    exact absurd rfl hns

theorem initState_expInv {G : Graph Node} (h : Heuristic Node) (startNode goalNode : Node) :
    ExpInv G (initState h startNode goalNode) := by
  intro m hm
  simp [initState] at hm

theorem initState_closedOptimal {G : Graph Node} (h : Heuristic Node)
    (startNode goalNode : Node) :
    ClosedOptimal G startNode (initState h startNode goalNode) := by
  intro u hu
  simp [initState] at hu

theorem searchLoop_succ_empty {G : Graph Node} {h : Heuristic Node}
    {startNode goalNode : Node} {fuel : ℕ} {st : SearchState Node}
    (hpop : popMin st.openSet = none) :
    searchLoop G h startNode goalNode (fuel + 1) st =
      some ({ path := [], totalCost := 0, expandedNodes := st.expandedNodes,
              found := false }, st) := by
  simp [searchLoop, hpop]

theorem searchLoop_succ_stale {G : Graph Node} {h : Heuristic Node}
    {startNode goalNode : Node} {fuel : ℕ} {st : SearchState Node}
    {uIt : PriorityQueueItem Node} {rest : List (PriorityQueueItem Node)}
    (hpop : popMin st.openSet = some (uIt, rest)) (hcl : uIt.node ∈ st.closedSet) :
    searchLoop G h startNode goalNode (fuel + 1) st =
      searchLoop G h startNode goalNode fuel { st with openSet := rest } := by
  simp [searchLoop, hpop, hcl]

theorem searchLoop_succ_goal {G : Graph Node} {h : Heuristic Node}
    {startNode goalNode : Node} {fuel : ℕ} {st : SearchState Node}
    {uIt : PriorityQueueItem Node} {rest : List (PriorityQueueItem Node)}
    (hpop : popMin st.openSet = some (uIt, rest)) (hcl : uIt.node ∉ st.closedSet)
    (hgoal : uIt.node = goalNode) :
    searchLoop G h startNode goalNode (fuel + 1) st =
      some ({ path := reconstructPath (st.closedSet ++ [uIt.node]).length st.cameFrom
                uIt.node startNode,
              totalCost := uIt.gScore,
              expandedNodes := st.expandedNodes + 1, found := true },
            { st with openSet := rest, closedSet := st.closedSet ++ [uIt.node],
                      expandedNodes := st.expandedNodes + 1 }) := by
  have hcl' : goalNode ∉ st.closedSet := hgoal ▸ hcl
  simp [searchLoop, hpop, hcl', hgoal]

theorem searchLoop_succ_expand {G : Graph Node} {h : Heuristic Node}
    {startNode goalNode : Node} {fuel : ℕ} {st : SearchState Node}
    {uIt : PriorityQueueItem Node} {rest : List (PriorityQueueItem Node)}
    (hpop : popMin st.openSet = some (uIt, rest)) (hcl : uIt.node ∉ st.closedSet)
    (hgoal : uIt.node ≠ goalNode) :
    searchLoop G h startNode goalNode (fuel + 1) st =
      searchLoop G h startNode goalNode fuel
        ((proposalsFor h goalNode uIt.node uIt.gScore (G.neighbors uIt.node)).foldl
          applyProposal
          { st with openSet := rest, closedSet := st.closedSet ++ [uIt.node],
                    expandedNodes := st.expandedNodes + 1 }) := by
  simp [searchLoop, hpop, hcl, hgoal]
/-- Along the search loop, under the invariants and with the goal reachable,
any returned result is a found result whose total cost is optimal. -/
theorem searchLoop_found_optimal {G : Graph Node} {h : Heuristic Node}
    {startNode goalNode : Node} (hcons : Consistent G h goalNode) :
    ∀ (fuel : ℕ) (st : SearchState Node) (r : Result Node) (stF : SearchState Node),
      Inv G h startNode goalNode st → ExpInv G st → ClosedOptimal G startNode st →
      goalNode ∉ st.closedSet → (∃ steps, IsPath G startNode steps goalNode) →
      searchLoop G h startNode goalNode fuel st = some (r, stF) →
      r.found = true ∧
      (∃ steps, IsPath G startNode steps goalNode ∧ pathCost steps = r.totalCost) ∧
      (∀ steps, IsPath G startNode steps goalNode → r.totalCost ≤ pathCost steps) := by
  intro fuel
  induction fuel with
  | zero =>
    intro st r stF _ _ _ _ _ hrun
    cases hrun
  | succ fuel ih =>
    intro st r stF hinv hexp hopt hgnc hpath hrun
    rcases hpop : popMin st.openSet with - | ⟨uIt, rest⟩
    · obtain ⟨steps, hsteps⟩ := hpath
      obtain ⟨it, hit, -⟩ := frontier_crossing hinv hexp hopt steps goalNode hsteps hgnc
      rw [popMin_eq_none_iff] at hpop
      rw [hpop] at hit
      simp at hit
    · have huNotCl : uIt.node ∉ st.closedSet :=
        hinv.openClosedDisjoint uIt (popMin_mem hpop)
      by_cases hgoal : uIt.node = goalNode
      · rw [searchLoop_succ_goal hpop huNotCl hgoal] at hrun
        rw [Option.some_inj, Prod.mk.injEq] at hrun
        obtain ⟨hr, hsF⟩ := hrun
        subst hr
        obtain ⟨hgu, -⟩ := hinv.sync uIt (popMin_mem hpop)
        refine ⟨rfl, ?_, ?_⟩
        · rw [hgoal] at hgu
          obtain ⟨steps, hsteps, hcost⟩ := hinv.sound _ _ hgu
          exact ⟨steps, hsteps, hcost⟩
        · intro steps hsteps
          have hopt2 := popClose_closedOptimal hcons hinv hexp hopt hpop
            (st.expandedNodes + 1)
          have hmem2 : goalNode ∈ st.closedSet ++ [uIt.node] :=
            List.mem_append_right _ (List.mem_singleton.mpr hgoal.symm)
          have hgg : st.pathCostFromStart goalNode = some uIt.gScore := by
            rw [← hgoal]
            exact hgu
          exact hopt2 goalNode hmem2 uIt.gScore hgg steps hsteps
      · rw [searchLoop_succ_expand hpop huNotCl hgoal] at hrun
        obtain ⟨hinv3, hexp3, hframe3⟩ := iterate_inv hinv hexp hpop (st.expandedNodes + 1)
        have hopt2 := popClose_closedOptimal hcons hinv hexp hopt hpop (st.expandedNodes + 1)
        have hopt3 := closedOptimal_congr (foldl_applyProposal_closedSet _ _)
          (fun n hn => by rw [hframe3 n hn]) hopt2
        have hgnc3 : goalNode ∉
            ((proposalsFor h goalNode uIt.node uIt.gScore (G.neighbors uIt.node)).foldl
              applyProposal
              { st with openSet := rest, closedSet := st.closedSet ++ [uIt.node],
                        expandedNodes := st.expandedNodes + 1 }).closedSet := by
          rw [foldl_applyProposal_closedSet]
          intro hmem
          rcases List.mem_append.mp hmem with hcl | hsing
          · exact hgnc hcl
          · exact hgoal (List.mem_singleton.mp hsing).symm
        exact ih _ r stF hinv3 hexp3 hopt3 hgnc3 hpath hrun

/-- With fuel exceeding the number of nodes, the search loop returns. -/
theorem searchLoop_isSome [Fintype Node] {G : Graph Node} {h : Heuristic Node}
    {startNode goalNode : Node} :
    ∀ (fuel : ℕ) (st : SearchState Node), Inv G h startNode goalNode st → ExpInv G st →
      Fintype.card Node + 1 ≤ fuel + st.closedSet.length →
      (searchLoop G h startNode goalNode fuel st).isSome := by
  intro fuel
  induction fuel with
  | zero =>
    intro st hinv _ hle
    have := hinv.closedNodup.length_le_card
    omega
  | succ fuel ih =>
    intro st hinv hexp hle
    rcases hpop : popMin st.openSet with - | ⟨uIt, rest⟩
    · rw [searchLoop_succ_empty hpop]
      rfl
    · have huNotCl : uIt.node ∉ st.closedSet :=
        hinv.openClosedDisjoint uIt (popMin_mem hpop)
      by_cases hgoal : uIt.node = goalNode
      · rw [searchLoop_succ_goal hpop huNotCl hgoal]
        rfl
      · rw [searchLoop_succ_expand hpop huNotCl hgoal]
        obtain ⟨hinv3, hexp3, -⟩ := iterate_inv hinv hexp hpop (st.expandedNodes + 1)
        apply ih _ hinv3 hexp3
        rw [foldl_applyProposal_closedSet]
        simp only [List.length_append, List.length_singleton]
        omega

/-- The predecessor chain of the start node is empty, so both the Go
reconstruction loop and the start-inference helper stop there at once. -/
theorem chain_start {G : Graph Node} {h : Heuristic Node} {startNode goalNode : Node}
    {st : SearchState Node} (hinv : Inv G h startNode goalNode st) :
    (∀ fuel, inferStartFromCameFrom st.cameFrom fuel startNode = startNode) ∧
    (∀ fuel acc, 1 ≤ fuel →
      reconstructPathLoop st.cameFrom startNode fuel startNode acc = acc) := by
  constructor
  · intro fuel
    cases fuel with
    | zero => rfl
    | succ f => simp [inferStartFromCameFrom, hinv.startCame]
  · intro fuel acc hf
    cases fuel with
    | zero => omega
    | succ f => simp [reconstructPathLoop]

/-- Walking the predecessor chain of a closed node terminates at the start
node: the chain spells a valid path whose cost is the node's g-score, the
Go reconstruction loop appends exactly its reversal, and the
start-inference helper returns the true start, all for fuel beyond the
node's closing index. -/
theorem closed_chain {G : Graph Node} {h : Heuristic Node} {startNode goalNode : Node}
    {st : SearchState Node} (hinv : Inv G h startNode goalNode st) :
    ∀ (k : ℕ) (n : Node), n ∈ st.closedSet → st.closedSet.indexOf n ≤ k →
      ∃ gn steps, st.pathCostFromStart n = some gn ∧ IsPath G startNode steps n ∧
        pathCost steps = gn ∧
        (∀ fuel, st.closedSet.indexOf n + 1 ≤ fuel →
          inferStartFromCameFrom st.cameFrom fuel n = startNode) ∧
        ∃ tail : List Node,
          (∀ fuel acc, st.closedSet.indexOf n + 1 ≤ fuel →
            reconstructPathLoop st.cameFrom startNode fuel n acc = acc ++ tail) ∧
          (n :: tail).reverse = pathNodes startNode steps := by
  intro k
  induction k with
  | zero =>
    intro n hn hidx
    have hne : st.closedSet ≠ [] := List.ne_nil_of_mem hn
    have hhead : st.closedSet.head? = some startNode := by
      rcases hinv.startFirst with ⟨hc, -⟩ | hh
      · exact absurd hc hne
      · exact hh
    have hnstart : n = startNode := by
      rcases hl : st.closedSet with - | ⟨a, tl⟩
      · exact absurd hl hne
      · rw [hl] at hhead hidx
        simp only [List.head?_cons, Option.some.injEq] at hhead
        by_cases han : a = n
        · rw [← han, hhead]
        · rw [List.indexOf_cons_ne _ han] at hidx
          omega
    subst hnstart
    obtain ⟨hinfer, hloop⟩ := chain_start hinv
    refine ⟨0, [], hinv.startG, IsPath.nil _, rfl, fun fuel _ => hinfer fuel, [],
      fun fuel acc hf => ?_, rfl⟩
    rw [hloop fuel acc (by omega)]
    simp
  | succ k ih =>
    intro n hn hidx
    by_cases hnstart : n = startNode
    · subst hnstart
      obtain ⟨hinfer, hloop⟩ := chain_start hinv
      refine ⟨0, [], hinv.startG, IsPath.nil _, rfl, fun fuel _ => hinfer fuel, [],
        fun fuel acc hf => ?_, rfl⟩
      rw [hloop fuel acc (by omega)]
      simp
    · have hcame := hinv.cameClosedTotal n hn hnstart
      rcases hcm : st.cameFrom n with - | m
      · exact absurd hcm hcame
      · obtain ⟨hmcl, gm, nb, hgm, hnb, hnbid, hgn⟩ := hinv.cameClosed n m hcm
        have hord : st.closedSet.indexOf m < st.closedSet.indexOf n :=
          hinv.cameOrder n m hcm hn
        obtain ⟨gm', steps_m, hgm', hpath_m, hcost_m, hinfer_m, tail_m, hloop_m, hrev_m⟩ :=
          ih m hmcl (by omega)
        have hgmEq : gm' = gm := by
          rw [hgm] at hgm'
          exact Option.some_inj.mp hgm'.symm
        refine ⟨gm + nb.cost, steps_m ++ [nb], hgn, ?_, ?_, ?_, m :: tail_m, ?_, ?_⟩
        · have := hpath_m.trans (IsPath.single hnb)
          rw [hnbid] at this
          exact this
        · simp only [pathCost_append, pathCost_cons, pathCost_nil, hcost_m, hgmEq]
          ring
        · intro fuel hf
          cases fuel with
          | zero => omega
          | succ f =>
            show inferStartFromCameFrom st.cameFrom (f + 1) n = startNode
            rw [inferStartFromCameFrom]
            rw [hcm]
            exact hinfer_m f (by omega)
        · intro fuel acc hf
          cases fuel with
          | zero => omega
          | succ f =>
            have hstep : reconstructPathLoop st.cameFrom startNode (f + 1) n acc =
                reconstructPathLoop st.cameFrom startNode f m (acc ++ [m]) := by
              show (if n = startNode then acc
                else
                  match st.cameFrom n with
                  | none => acc
                  | some previousNode =>
                    reconstructPathLoop st.cameFrom startNode f previousNode
                      (acc ++ [previousNode])) =
                reconstructPathLoop st.cameFrom startNode f m (acc ++ [m])
              rw [if_neg hnstart, hcm]
            rw [hstep, hloop_m f (acc ++ [m]) (by omega)]
            simp
        · have hrw : (n :: (m :: tail_m)).reverse = (m :: tail_m).reverse ++ [n] :=
            List.reverse_cons _ _
          rw [hrw, hrev_m]
          simp [pathNodes, hnbid]

/-- Reconstruction summary for a closed node, at the fuel the engine
supplies (the closed-set size): the reconstructed path is the node sequence
of a valid start-to-node path whose cost is the node's g-score, and the
start-inference helper returns the true start node. -/
theorem reconstructPath_closed {G : Graph Node} {h : Heuristic Node}
    {startNode goalNode : Node} {st : SearchState Node}
    (hinv : Inv G h startNode goalNode st) {n : Node} (hn : n ∈ st.closedSet) :
    ∃ gn steps, st.pathCostFromStart n = some gn ∧ IsPath G startNode steps n ∧
      pathCost steps = gn ∧
      reconstructPath st.closedSet.length st.cameFrom n startNode =
        pathNodes startNode steps ∧
      inferStartFromCameFrom st.cameFrom st.closedSet.length n = startNode := by
  have hidx : st.closedSet.indexOf n < st.closedSet.length :=
    List.indexOf_lt_length.mpr hn
  obtain ⟨gn, steps, hgn, hpath, hcost, hinfer, tail, hloop, hrev⟩ :=
    closed_chain hinv (st.closedSet.indexOf n) n hn (le_refl _)
  refine ⟨gn, steps, hgn, hpath, hcost, ?_, hinfer _ (by omega)⟩
  unfold reconstructPath
  rw [hloop st.closedSet.length [n] (by omega)]
  exact hrev

/-- Along the search loop under the base invariant, a found result's path
is the node sequence of a valid start-to-goal path whose summed edge costs
equal the reported total cost. -/
theorem searchLoop_path_valid {G : Graph Node} {h : Heuristic Node}
    {startNode goalNode : Node} :
    ∀ (fuel : ℕ) (st : SearchState Node) (r : Result Node) (stF : SearchState Node),
      Inv G h startNode goalNode st →
      searchLoop G h startNode goalNode fuel st = some (r, stF) → r.found = true →
      ∃ steps, IsPath G startNode steps goalNode ∧ r.path = pathNodes startNode steps ∧
        pathCost steps = r.totalCost := by
  intro fuel
  induction fuel with
  | zero =>
    intro st r stF _ hrun
    cases hrun
  | succ fuel ih =>
    intro st r stF hinv hrun hfound
    rcases hpop : popMin st.openSet with - | ⟨uIt, rest⟩
    · rw [searchLoop_succ_empty hpop] at hrun
      rw [Option.some_inj, Prod.mk.injEq] at hrun
      obtain ⟨hr, -⟩ := hrun
      subst hr
      simp at hfound
    · have huNotCl : uIt.node ∉ st.closedSet :=
        hinv.openClosedDisjoint uIt (popMin_mem hpop)
      by_cases hgoal : uIt.node = goalNode
      · rw [searchLoop_succ_goal hpop huNotCl hgoal] at hrun
        rw [Option.some_inj, Prod.mk.injEq] at hrun
        obtain ⟨hr, hsF⟩ := hrun
        subst hr
        have hinv2 := popClose_inv hinv hpop (st.expandedNodes + 1)
        have hmem2 : uIt.node ∈ (st.closedSet ++ [uIt.node]) :=
          List.mem_append_right _ (List.mem_cons_self _ _)
        obtain ⟨gn, steps, hgn, hpath, hcost, hrecon, -⟩ :=
          reconstructPath_closed hinv2 hmem2
        obtain ⟨hgu, -⟩ := hinv.sync uIt (popMin_mem hpop)
        have hgnEq : gn = uIt.gScore := by
          have hgn' : st.pathCostFromStart uIt.node = some gn := hgn
          rw [hgu] at hgn'
          exact (Option.some_inj.mp hgn').symm
        refine ⟨steps, by rw [← hgoal]; exact hpath, ?_, by rw [hcost, hgnEq]⟩
        exact hrecon
      · rw [searchLoop_succ_expand hpop huNotCl hgoal] at hrun
        have hinv2 := popClose_inv hinv hpop (st.expandedNodes + 1)
        have hgu : st.pathCostFromStart uIt.node = some uIt.gScore :=
          (hinv.sync uIt (popMin_mem hpop)).1
        obtain ⟨hinv3, -, -, -⟩ := foldl_proposals_inv (G.neighbors uIt.node) _ hinv2
          (List.mem_append_right _ (List.mem_cons_self _ _)) hgu (fun _ hm => hm)
        exact ih _ r stF hinv3 hrun hfound

/-- A not-found return comes from frontier exhaustion: the final frontier
is empty, the goal was never closed, the path is empty, the total cost is
zero, and the reported expansion count equals the number of closed nodes. -/
theorem searchLoop_not_found {G : Graph Node} {h : Heuristic Node}
    {startNode goalNode : Node} :
    ∀ (fuel : ℕ) (st : SearchState Node) (r : Result Node) (stF : SearchState Node),
      goalNode ∉ st.closedSet → st.expandedNodes = st.closedSet.length →
      searchLoop G h startNode goalNode fuel st = some (r, stF) → r.found = false →
      r.path = [] ∧ r.totalCost = 0 ∧ stF.openSet = [] ∧ goalNode ∉ stF.closedSet ∧
      r.expandedNodes = stF.expandedNodes ∧ stF.expandedNodes = stF.closedSet.length := by
  intro fuel
  induction fuel with
  | zero =>
    intro st r stF _ _ hrun
    cases hrun
  | succ fuel ih =>
    intro st r stF hgnc hexp hrun hnf
    rcases hpop : popMin st.openSet with - | ⟨uIt, rest⟩
    · rw [searchLoop_succ_empty hpop] at hrun
      rw [Option.some_inj, Prod.mk.injEq] at hrun
      obtain ⟨hr, hsF⟩ := hrun
      subst hr
      subst hsF
      rw [popMin_eq_none_iff] at hpop
      exact ⟨rfl, rfl, hpop, hgnc, rfl, hexp⟩
    · by_cases hcl : uIt.node ∈ st.closedSet
      · rw [searchLoop_succ_stale hpop hcl] at hrun
        exact ih { st with openSet := rest } r stF hgnc hexp hrun hnf
      · by_cases hgoal : uIt.node = goalNode
        · rw [searchLoop_succ_goal hpop hcl hgoal] at hrun
          rw [Option.some_inj, Prod.mk.injEq] at hrun
          obtain ⟨hr, -⟩ := hrun
          subst hr
          simp at hnf
        · rw [searchLoop_succ_expand hpop hcl hgoal] at hrun
          refine ih _ r stF ?_ ?_ hrun hnf
          · rw [foldl_applyProposal_closedSet]
            intro hmem
            rcases List.mem_append.mp hmem with hc | hsing
            · exact hgnc hc
            · exact hgoal (List.mem_singleton.mp hsing).symm
          · rw [foldl_applyProposal_closedSet, foldl_applyProposal_expandedNodes]
            simp only [List.length_append, List.length_singleton]
            omega

theorem stepperStep_done {G : Graph Node} {h : Heuristic Node} {goalNode : Node}
    {fuel : ℕ} {s : StepperState Node} (hd : s.done = true) :
    stepperStep G h goalNode (fuel + 1) s = some (s, doneSnapshot s) := by
  simp [stepperStep, hd]

theorem stepperStep_exhaust {G : Graph Node} {h : Heuristic Node} {goalNode : Node}
    {fuel : ℕ} {s : StepperState Node} (hd : s.done = false)
    (hpop : popMin s.core.openSet = none) :
    stepperStep G h goalNode (fuel + 1) s =
      some ({ s with done := true },
            { current := none, openSet := openNodeList s.core.openSet,
              closedSet := s.core.closedSet, cameFrom := s.core.cameFrom,
              done := true, found := false, path := [], stepIndex := s.stepCount }) := by
  simp [stepperStep, hd, hpop]

theorem stepperStep_goal {G : Graph Node} {h : Heuristic Node} {goalNode : Node}
    {fuel : ℕ} {s : StepperState Node} {uIt : PriorityQueueItem Node}
    {rest : List (PriorityQueueItem Node)} (hd : s.done = false)
    (hpop : popMin s.core.openSet = some (uIt, rest))
    (hcl : uIt.node ∉ s.core.closedSet) (hgoal : uIt.node = goalNode) :
    stepperStep G h goalNode (fuel + 1) s =
      some ({ s with
              core := { s.core with
                openSet := rest
                closedSet := s.core.closedSet ++ [uIt.node]
                expandedNodes := s.core.expandedNodes + 1 }
              stepCount := s.stepCount + 1
              done := true
              found := true },
            { current := some uIt.node,
              openSet := openNodeList rest,
              closedSet := s.core.closedSet ++ [uIt.node],
              cameFrom := s.core.cameFrom,
              done := true, found := true,
              path := reconstructPath (s.core.closedSet ++ [uIt.node]).length
                s.core.cameFrom uIt.node
                (inferStartFromCameFrom s.core.cameFrom
                  (s.core.closedSet ++ [uIt.node]).length uIt.node),
              stepIndex := s.stepCount + 1 }) := by
  have hcl' : goalNode ∉ s.core.closedSet := hgoal ▸ hcl
  simp [stepperStep, hd, hpop, hcl', hgoal]

theorem stepperStep_expand {G : Graph Node} {h : Heuristic Node} {goalNode : Node}
    {fuel : ℕ} {s : StepperState Node} {uIt : PriorityQueueItem Node}
    {rest : List (PriorityQueueItem Node)} (hd : s.done = false)
    (hpop : popMin s.core.openSet = some (uIt, rest))
    (hcl : uIt.node ∉ s.core.closedSet) (hgoal : uIt.node ≠ goalNode) :
    stepperStep G h goalNode (fuel + 1) s =
      some ({ s with
              core := (proposalsFor h goalNode uIt.node uIt.gScore
                (G.neighbors uIt.node)).foldl applyProposal
                { s.core with
                  openSet := rest
                  closedSet := s.core.closedSet ++ [uIt.node]
                  expandedNodes := s.core.expandedNodes + 1 }
              stepCount := s.stepCount + 1 },
            { current := some uIt.node,
              openSet := openNodeList ((proposalsFor h goalNode uIt.node uIt.gScore
                (G.neighbors uIt.node)).foldl applyProposal
                { s.core with
                  openSet := rest
                  closedSet := s.core.closedSet ++ [uIt.node]
                  expandedNodes := s.core.expandedNodes + 1 }).openSet,
              closedSet := ((proposalsFor h goalNode uIt.node uIt.gScore
                (G.neighbors uIt.node)).foldl applyProposal
                { s.core with
                  openSet := rest
                  closedSet := s.core.closedSet ++ [uIt.node]
                  expandedNodes := s.core.expandedNodes + 1 }).closedSet,
              cameFrom := ((proposalsFor h goalNode uIt.node uIt.gScore
                (G.neighbors uIt.node)).foldl applyProposal
                { s.core with
                  openSet := rest
                  closedSet := s.core.closedSet ++ [uIt.node]
                  expandedNodes := s.core.expandedNodes + 1 }).cameFrom,
              done := false, found := false, path := [],
              stepIndex := s.stepCount + 1 }) := by
  simp [stepperStep, hd, hpop, hcl, hgoal]

/-- The stepper invariant: the embedded core satisfies the search
invariant, and while running the goal is not yet closed and the found flag
is still unset. -/
def SInv (G : Graph Node) (h : Heuristic Node) (startNode goalNode : Node)
    (s : StepperState Node) : Prop :=
  Inv G h startNode goalNode s.core ∧
    (s.done = false → goalNode ∉ s.core.closedSet ∧ s.found = false)

theorem newStepper_sinv {G : Graph Node} (h : Heuristic Node)
    (startNode goalNode : Node) :
    SInv G h startNode goalNode (newStepper h startNode goalNode) := by
  refine ⟨initState_inv h startNode goalNode, fun _ => ⟨?_, rfl⟩⟩
  simp [newStepper, initState]

/-- Every `Step` call preserves the stepper invariant. -/
theorem stepperStep_sinv {G : Graph Node} {h : Heuristic Node}
    {startNode goalNode : Node} {fuel : ℕ} {s s' : StepperState Node}
    {snap : StepSnapshot Node}
    (hs : SInv G h startNode goalNode s)
    (hrun : stepperStep G h goalNode fuel s = some (s', snap)) :
    SInv G h startNode goalNode s' := by
  obtain ⟨hinv, hrunning⟩ := hs
  cases fuel with
  | zero => cases hrun
  | succ fuel =>
    by_cases hd : s.done = true
    · rw [stepperStep_done hd] at hrun
      rw [Option.some_inj, Prod.mk.injEq] at hrun
      rw [← hrun.1]
      exact ⟨hinv, hrunning⟩
    · have hd' : s.done = false := by simpa using hd
      obtain ⟨hgnc, hfound⟩ := hrunning hd'
      rcases hpop : popMin s.core.openSet with - | ⟨uIt, rest⟩
      · rw [stepperStep_exhaust hd' hpop] at hrun
        rw [Option.some_inj, Prod.mk.injEq] at hrun
        rw [← hrun.1]
        exact ⟨hinv, by simp⟩
      · have hcl : uIt.node ∉ s.core.closedSet :=
          hinv.openClosedDisjoint uIt (popMin_mem hpop)
        by_cases hgoal : uIt.node = goalNode
        · rw [stepperStep_goal hd' hpop hcl hgoal] at hrun
          rw [Option.some_inj, Prod.mk.injEq] at hrun
          rw [← hrun.1]
          exact ⟨popClose_inv hinv hpop _, by simp⟩
        · rw [stepperStep_expand hd' hpop hcl hgoal] at hrun
          rw [Option.some_inj, Prod.mk.injEq] at hrun
          rw [← hrun.1]
          refine ⟨?_, fun _ => ⟨?_, hfound⟩⟩
          · have hinv2 := popClose_inv hinv hpop (s.core.expandedNodes + 1)
            have hgu : s.core.pathCostFromStart uIt.node = some uIt.gScore :=
              (hinv.sync uIt (popMin_mem hpop)).1
            exact (foldl_proposals_inv (G.neighbors uIt.node) _ hinv2
              (List.mem_append_right _ (List.mem_cons_self _ _)) hgu
              (fun _ hm => hm)).1
          · show goalNode ∉ ((proposalsFor h goalNode uIt.node uIt.gScore
              (G.neighbors uIt.node)).foldl applyProposal _).closedSet
            rw [foldl_applyProposal_closedSet]
            intro hmem
            rcases List.mem_append.mp hmem with hc | hsing
            · exact hgnc hc
            · exact hgoal (List.mem_singleton.mp hsing).symm

theorem stepperRun_unfold {G : Graph Node} {h : Heuristic Node} {goalNode : Node}
    {fuel : ℕ} {s s' : StepperState Node} {snap : StepSnapshot Node}
    (hstep : stepperStep G h goalNode (fuel + 1) s = some (s', snap)) :
    stepperRun G h goalNode (fuel + 1) s =
      if snap.done = true then some (s', snap)
      else stepperRun G h goalNode fuel s' := by
  show (match stepperStep G h goalNode (fuel + 1) s with
    | none => none
    | some (s', snap) =>
      if snap.done then some (s', snap) else stepperRun G h goalNode fuel s') = _
  rw [hstep]

/-- Stepping to completion mirrors the run-to-completion loop exactly: the
same number of iterations, the same termination kind, the same found flag,
the same final core state, and the same reconstructed path. -/
theorem stepperRun_matches_searchLoop {G : Graph Node} {h : Heuristic Node}
    {startNode goalNode : Node} :
    ∀ (fuel : ℕ) (st : SearchState Node) (s : StepperState Node)
      (r : Result Node) (stF : SearchState Node),
      Inv G h startNode goalNode st → s.done = false → s.found = false →
      s.core = st →
      searchLoop G h startNode goalNode fuel st = some (r, stF) →
      ∃ s' snap, stepperRun G h goalNode fuel s = some (s', snap) ∧
        snap.done = true ∧ snap.found = r.found ∧ s'.found = r.found ∧
        s'.core = stF ∧ snap.closedSet = stF.closedSet ∧ snap.path = r.path := by
  intro fuel
  induction fuel with
  | zero =>
    intro st s r stF _ _ _ _ hrun
    cases hrun
  | succ fuel ih =>
    intro st s r stF hinv hd hf hcore hrun
    subst hcore
    rcases hpop : popMin s.core.openSet with - | ⟨uIt, rest⟩
    · rw [searchLoop_succ_empty hpop] at hrun
      rw [Option.some_inj, Prod.mk.injEq] at hrun
      obtain ⟨hr, hsF⟩ := hrun
      rw [stepperRun_unfold (stepperStep_exhaust hd hpop), if_pos rfl]
      refine ⟨_, _, rfl, rfl, ?_, ?_, ?_, ?_, ?_⟩
      · rw [← hr]
      · rw [← hr]
        exact hf
      · rw [← hsF]
      · rw [← hsF]
      · rw [← hr]
    · have hcl : uIt.node ∉ s.core.closedSet :=
        hinv.openClosedDisjoint uIt (popMin_mem hpop)
      by_cases hgoal : uIt.node = goalNode
      · rw [searchLoop_succ_goal hpop hcl hgoal] at hrun
        rw [Option.some_inj, Prod.mk.injEq] at hrun
        obtain ⟨hr, hsF⟩ := hrun
        rw [stepperRun_unfold (stepperStep_goal hd hpop hcl hgoal), if_pos rfl]
        have hinv2 := popClose_inv hinv hpop (s.core.expandedNodes + 1)
        have hmem2 : uIt.node ∈ (s.core.closedSet ++ [uIt.node]) :=
          List.mem_append_right _ (List.mem_cons_self _ _)
        obtain ⟨gn, steps, hgn, hpath, hcost, hrecon, hinfer⟩ :=
          reconstructPath_closed hinv2 hmem2
        refine ⟨_, _, rfl, rfl, ?_, ?_, ?_, ?_, ?_⟩
        · rw [← hr]
        · rw [← hr]
        · rw [← hsF]
        · rw [← hsF]
        · rw [← hr]
          show reconstructPath (s.core.closedSet ++ [uIt.node]).length s.core.cameFrom
              uIt.node
              (inferStartFromCameFrom s.core.cameFrom
                (s.core.closedSet ++ [uIt.node]).length uIt.node) =
            reconstructPath (s.core.closedSet ++ [uIt.node]).length s.core.cameFrom
              uIt.node startNode
          rw [show inferStartFromCameFrom s.core.cameFrom
            (s.core.closedSet ++ [uIt.node]).length uIt.node = startNode from hinfer]
      · rw [searchLoop_succ_expand hpop hcl hgoal] at hrun
        rw [stepperRun_unfold (stepperStep_expand hd hpop hcl hgoal), if_neg (by simp)]
        have hinv2 := popClose_inv hinv hpop (s.core.expandedNodes + 1)
        have hgu : s.core.pathCostFromStart uIt.node = some uIt.gScore :=
          (hinv.sync uIt (popMin_mem hpop)).1
        have hinv3 := (foldl_proposals_inv (G.neighbors uIt.node) _ hinv2
          (List.mem_append_right _ (List.mem_cons_self _ _)) hgu (fun _ hm => hm)).1
        exact ih _ _ r stF hinv3 hd hf rfl hrun

/-- One non-returning iteration of the `Search` orchestrator loop, as a
relation on states: the stale skip, the goal close (the state at the
successful return), and the full expansion round. -/
inductive SearchIter (G : Graph Node) (h : Heuristic Node) (startNode goalNode : Node) :
    SearchState Node → SearchState Node → Prop
  | stale {st : SearchState Node} {uIt : PriorityQueueItem Node}
      {rest : List (PriorityQueueItem Node)} :
      popMin st.openSet = some (uIt, rest) → uIt.node ∈ st.closedSet →
      SearchIter G h startNode goalNode st { st with openSet := rest }
  | close {st : SearchState Node} {uIt : PriorityQueueItem Node}
      {rest : List (PriorityQueueItem Node)} :
      popMin st.openSet = some (uIt, rest) → uIt.node ∉ st.closedSet →
      uIt.node = goalNode →
      SearchIter G h startNode goalNode st
        { st with openSet := rest, closedSet := st.closedSet ++ [uIt.node],
                  expandedNodes := st.expandedNodes + 1 }
  | expand {st : SearchState Node} {uIt : PriorityQueueItem Node}
      {rest : List (PriorityQueueItem Node)} :
      popMin st.openSet = some (uIt, rest) → uIt.node ∉ st.closedSet →
      uIt.node ≠ goalNode →
      SearchIter G h startNode goalNode st
        ((proposalsFor h goalNode uIt.node uIt.gScore (G.neighbors uIt.node)).foldl
          applyProposal
          { st with openSet := rest, closedSet := st.closedSet ++ [uIt.node],
                    expandedNodes := st.expandedNodes + 1 })

/-- States the `Search` orchestrator can be in, starting from the initial
state of the given run. -/
def SearchReachable (G : Graph Node) (h : Heuristic Node) (startNode goalNode : Node)
    (st : SearchState Node) : Prop :=
  Relation.ReflTransGen (SearchIter G h startNode goalNode)
    (initState h startNode goalNode) st

theorem searchIter_inv {G : Graph Node} {h : Heuristic Node}
    {startNode goalNode : Node} {st st' : SearchState Node}
    (hinv : Inv G h startNode goalNode st)
    (hit : SearchIter G h startNode goalNode st st') :
    Inv G h startNode goalNode st' := by
  cases hit with
  | stale hpop hcl => exact absurd hcl (hinv.openClosedDisjoint _ (popMin_mem hpop))
  | close hpop hcl hg => exact popClose_inv hinv hpop _
  | expand hpop hcl hg =>
    have hinv2 := popClose_inv hinv hpop (st.expandedNodes + 1)
    have hgu := (hinv.sync _ (popMin_mem hpop)).1
    exact (foldl_proposals_inv _ _ hinv2
      (List.mem_append_right _ (List.mem_cons_self _ _)) hgu (fun _ hm => hm)).1

theorem searchReachable_inv {G : Graph Node} {h : Heuristic Node}
    {startNode goalNode : Node} {st : SearchState Node}
    (hr : SearchReachable G h startNode goalNode st) :
    Inv G h startNode goalNode st := by
  induction hr with
  | refl => exact initState_inv h startNode goalNode
  | tail hs hit ih => exact searchIter_inv ih hit

/-- One external `Step` call on a stepper, as a relation on stepper states. -/
def StepperStepRel (G : Graph Node) (h : Heuristic Node) (goalNode : Node)
    (s s' : StepperState Node) : Prop :=
  ∃ fuel snap, stepperStep G h goalNode fuel s = some (s', snap)

/-- Stepper states arising from `NewStepper` followed by `Step` calls. -/
def StepperReachable (G : Graph Node) (h : Heuristic Node)
    (startNode goalNode : Node) (s : StepperState Node) : Prop :=
  Relation.ReflTransGen (StepperStepRel G h goalNode)
    (newStepper h startNode goalNode) s

theorem stepperReachable_sinv {G : Graph Node} {h : Heuristic Node}
    {startNode goalNode : Node} {s : StepperState Node}
    (hr : StepperReachable G h startNode goalNode s) :
    SInv G h startNode goalNode s := by
  induction hr with
  | refl => exact newStepper_sinv h startNode goalNode
  | tail hs hrel ih =>
    obtain ⟨fuel, snap, hstep⟩ := hrel
    exact stepperStep_sinv ih hstep

/-- Per-node g-score evolution across a state change: each entry is
unchanged, newly created, or replaced by a strictly smaller value. -/
def GMono (a b : SearchState Node) : Prop :=
  ∀ n, b.pathCostFromStart n = a.pathCostFromStart n ∨
    (a.pathCostFromStart n = none ∧ ∃ c, b.pathCostFromStart n = some c) ∨
    (∃ c c', a.pathCostFromStart n = some c ∧ b.pathCostFromStart n = some c' ∧ c' < c)

theorem gMono_refl (a : SearchState Node) : GMono a a := fun _ => Or.inl rfl

theorem gMono_trans {a b c : SearchState Node} (h1 : GMono a b) (h2 : GMono b c) :
    GMono a c := by
  intro n
  rcases h2 n with e2 | ⟨hb2, c2, hc2⟩ | ⟨x2, y2, hx2, hy2, hxy2⟩
  · rcases h1 n with e1 | ⟨ha1, c1, hc1⟩ | ⟨x1, y1, hx1, hy1, hxy1⟩
    · exact Or.inl (e2.trans e1)
    · exact Or.inr (Or.inl ⟨ha1, c1, e2.trans hc1⟩)
    · exact Or.inr (Or.inr ⟨x1, y1, hx1, e2.trans hy1, hxy1⟩)
  · rcases h1 n with e1 | ⟨ha1, c1, hc1⟩ | ⟨x1, y1, hx1, hy1, hxy1⟩
    · exact Or.inr (Or.inl ⟨e1 ▸ hb2, c2, hc2⟩)
    · rw [hc1] at hb2
      cases hb2
    · rw [hy1] at hb2
      cases hb2
  · rcases h1 n with e1 | ⟨ha1, c1, hc1⟩ | ⟨x1, y1, hx1, hy1, hxy1⟩
    · exact Or.inr (Or.inr ⟨x2, y2, e1 ▸ hx2, hy2, hxy2⟩)
    · rw [hc1] at hx2
      rw [Option.some_inj] at hx2
      exact Or.inr (Or.inl ⟨ha1, y2, hy2⟩)
    · rw [hy1] at hx2
      rw [Option.some_inj] at hx2
      exact Or.inr (Or.inr ⟨x1, y2, hx1, hy2, lt_trans hxy2 (hx2 ▸ hxy1)⟩)

/-- Relaxation only creates or strictly improves g-score entries. -/
theorem applyProposal_gMono (st : SearchState Node) (p : RelaxProposal Node) :
    GMono st (applyProposal st p) := by
  rcases applyProposal_cases st p with ⟨-, he⟩ | ⟨-, -, he⟩ | ⟨hc, hu, hf, he⟩ |
    ⟨item, hc, hu, hf, hlt, he⟩ | ⟨item, hc, hu, hf, hnlt, he⟩ <;> rw [he] <;>
    try exact gMono_refl st
  all_goals {
    intro n
    by_cases hn : n = p.toNode
    · subst hn
      rcases hg : st.pathCostFromStart p.toNode with - | curG
      · exact Or.inr (Or.inl ⟨rfl, p.gScore, by simp⟩)
      · have hlt' : p.gScore < curG := by
          rw [hg] at hu
          simpa [shouldUpdate] using hu
        exact Or.inr (Or.inr ⟨curG, p.gScore, rfl, by simp, hlt'⟩)
    · exact Or.inl (by simp [hn]) }

theorem foldl_applyProposal_gMono (ps : List (RelaxProposal Node)) (st : SearchState Node) :
    GMono st (ps.foldl applyProposal st) := by
  induction ps generalizing st with
  | nil => exact gMono_refl st
  | cons p tl ih =>
    exact gMono_trans (applyProposal_gMono st p) (ih (applyProposal st p))

theorem searchIter_gMono {G : Graph Node} {h : Heuristic Node}
    {startNode goalNode : Node} {st st' : SearchState Node}
    (hit : SearchIter G h startNode goalNode st st') : GMono st st' := by
  cases hit with
  | stale hpop hcl => exact fun n => Or.inl rfl
  | close hpop hcl hg => exact fun n => Or.inl rfl
  | expand hpop hcl hg => exact foldl_applyProposal_gMono _ _

theorem stepperStep_gMono {G : Graph Node} {h : Heuristic Node} {goalNode : Node} :
    ∀ {fuel : ℕ} {s s' : StepperState Node} {snap : StepSnapshot Node},
      stepperStep G h goalNode fuel s = some (s', snap) → GMono s.core s'.core := by
  intro fuel
  induction fuel with
  | zero =>
    intro s s' snap hrun
    cases hrun
  | succ fuel ih =>
    intro s s' snap hrun
    by_cases hd : s.done = true
    · rw [stepperStep_done hd, Option.some_inj, Prod.mk.injEq] at hrun
      rw [← hrun.1]
      exact gMono_refl _
    · have hd' : s.done = false := by simpa using hd
      rcases hpop : popMin s.core.openSet with - | ⟨uIt, rest⟩
      · rw [stepperStep_exhaust hd' hpop, Option.some_inj, Prod.mk.injEq] at hrun
        rw [← hrun.1]
        exact gMono_refl _
      · by_cases hcl : uIt.node ∈ s.core.closedSet
        · have hrun' : stepperStep G h goalNode fuel
              { s with
                core := { s.core with openSet := rest }
                stepCount := s.stepCount + 1 } = some (s', snap) := by
            rw [← hrun]
            show _ = stepperStep G h goalNode (fuel + 1) s
            simp [stepperStep, hd', hpop, hcl]
          refine gMono_trans ?_ (ih hrun')
          exact fun n => Or.inl rfl
        · by_cases hgoal : uIt.node = goalNode
          · rw [stepperStep_goal hd' hpop hcl hgoal, Option.some_inj,
              Prod.mk.injEq] at hrun
            rw [← hrun.1]
            exact fun n => Or.inl rfl
          · rw [stepperStep_expand hd' hpop hcl hgoal, Option.some_inj,
              Prod.mk.injEq] at hrun
            rw [← hrun.1]
            exact foldl_applyProposal_gMono _ _

/-- A helper graph over `ℕ` used in concrete checks: a single edge 0 → 1 of
cost 1. -/
def lineGraph : Graph ℕ := ⟨fun n => if n = 0 then [⟨1, 1⟩] else []⟩

/-- The zero heuristic over `ℕ`. -/
def zeroH : Heuristic ℕ := fun _ _ => 0

/-- A stepper on `lineGraph` from 0 to 1, and its first three steps. -/
def exS0 : StepperState ℕ := newStepper zeroH 0 1

def exRun1 : Option (StepperState ℕ × StepSnapshot ℕ) := stepperStep lineGraph zeroH 1 1 exS0

def exS1 : StepperState ℕ := (exRun1.map Prod.fst).getD exS0

def exRun2 : Option (StepperState ℕ × StepSnapshot ℕ) := stepperStep lineGraph zeroH 1 1 exS1

def exS2 : StepperState ℕ := (exRun2.map Prod.fst).getD exS0

def exRun3 : Option (StepperState ℕ × StepSnapshot ℕ) := stepperStep lineGraph zeroH 1 1 exS2

/-- A search state whose closed set already contains node 1, for exercising
the closed-proposal discard. -/
def closedExSt : SearchState ℕ :=
  { openSet := [], closedSet := [1], cameFrom := fun _ => none,
    pathCostFromStart := fun n => if n = 1 then some 1 else none, expandedNodes := 1 }

/-- The single frontier item of the example stepper state after one step. -/
def exItem1 : PriorityQueueItem ℕ :=
  ((popMin exS1.core.openSet).getD (⟨0, 0, 0⟩, [])).1

/-- `Step` calls never shrink the closed set (fuel-indexed form covering the
internal stale retry). -/
theorem stepperStep_closed_mono {G : Graph Node} {h : Heuristic Node} {goalNode : Node} :
    ∀ {fuel : ℕ} {s s' : StepperState Node} {snap : StepSnapshot Node},
      stepperStep G h goalNode fuel s = some (s', snap) →
      s.core.closedSet ⊆ s'.core.closedSet := by
  intro fuel
  induction fuel with
  | zero =>
    intro s s' snap hrun
    cases hrun
  | succ fuel ih =>
    intro s s' snap hrun
    by_cases hd : s.done = true
    · rw [stepperStep_done hd, Option.some_inj, Prod.mk.injEq] at hrun
      rw [← hrun.1]
      exact fun n hn => hn
    · have hd' : s.done = false := by simpa using hd
      rcases hpop : popMin s.core.openSet with - | ⟨uIt, rest⟩
      · rw [stepperStep_exhaust hd' hpop, Option.some_inj, Prod.mk.injEq] at hrun
        rw [← hrun.1]
        exact fun n hn => hn
      · by_cases hcl : uIt.node ∈ s.core.closedSet
        · have hrun' : stepperStep G h goalNode fuel
              { s with
                core := { s.core with openSet := rest }
                stepCount := s.stepCount + 1 } = some (s', snap) := by
            rw [← hrun]
            show _ = stepperStep G h goalNode (fuel + 1) s
            simp [stepperStep, hd', hpop, hcl]
          intro n hn
          exact ih hrun' hn
        · by_cases hgoal : uIt.node = goalNode
          · rw [stepperStep_goal hd' hpop hcl hgoal, Option.some_inj,
              Prod.mk.injEq] at hrun
            rw [← hrun.1]
            exact fun n hn => List.mem_append_left _ hn
          · rw [stepperStep_expand hd' hpop hcl hgoal, Option.some_inj,
              Prod.mk.injEq] at hrun
            rw [← hrun.1]
            intro n hn
            show n ∈ ((proposalsFor h goalNode uIt.node uIt.gScore
              (G.neighbors uIt.node)).foldl applyProposal _).closedSet
            rw [foldl_applyProposal_closedSet]
            exact List.mem_append_left _ hn

/-- Channel-level state of one expansion round of `Search` (part_001 lines
141-182) and of `Step` (stepper.go lines 158-191): the orchestrator first
sends one task per neighbor of the popped node on the unbuffered task
channel, and only then receives one proposal per neighbor from the
unbuffered proposal channel; each worker loops receiving a task and then
performs a plain (non-select) send of the computed proposal on the
unbuffered proposal channel. `tasksSent` counts completed task handoffs,
`collected` counts proposals the orchestrator has received, `idle` counts
workers waiting at the task-receive select, `blocked` counts workers stuck
in the send of their computed proposal. -/
structure RoundState where
  tasksSent : ℕ
  collected : ℕ
  idle : ℕ
  blocked : ℕ

/-- A rendezvous on one of the two unbuffered channels during the round,
with `numNeighbors` tasks to hand out. `dispatch`: the orchestrator's next
task send pairs with an idle worker, which computes and then blocks on the
send of its proposal (the computation itself always finishes). `collect`: a
blocked worker's proposal send pairs with the orchestrator's receive, which
the orchestrator performs only after all `numNeighbors` task sends
completed, and exactly `numNeighbors` times; the worker returns to its
task-receive select. Nothing else in the Go code touches either channel. -/
inductive RoundStep (numNeighbors : ℕ) : RoundState → RoundState → Prop
  | dispatch {s : RoundState} : s.tasksSent < numNeighbors → 0 < s.idle →
      RoundStep numNeighbors s
        ⟨s.tasksSent + 1, s.collected, s.idle - 1, s.blocked + 1⟩
  | collect {s : RoundState} : s.tasksSent = numNeighbors →
      s.collected < numNeighbors → 0 < s.blocked →
      RoundStep numNeighbors s
        ⟨s.tasksSent, s.collected + 1, s.idle + 1, s.blocked - 1⟩

/-- Round states reachable on some schedule from the round's start: `W`
workers idle at their select, no channel traffic yet. -/
def RoundReachable (W numNeighbors : ℕ) (s : RoundState) : Prop :=
  Relation.ReflTransGen (RoundStep numNeighbors) ⟨0, 0, W, 0⟩ s

/-- The orchestrator's collect loop has finished: one proposal was received
per neighbor, and this `Search` iteration can proceed to the next pop. -/
def RoundDone (numNeighbors : ℕ) (s : RoundState) : Prop :=
  s.collected = numNeighbors

/-- When the round has more tasks than workers, no schedule ever delivers a
proposal: workers blocked in their proposal send never return to the task
select, so the books stay `blocked = tasksSent` and `idle + tasksSent = W`,
and the orchestrator, stuck before the end of its send loop, never reaches
the collect loop. -/
theorem roundReachable_inv {W N : ℕ} (hWN : W < N) {s : RoundState}
    (hreach : RoundReachable W N s) :
    s.collected = 0 ∧ s.blocked = s.tasksSent ∧ s.idle + s.tasksSent = W := by
  induction hreach with
  | refl => exact ⟨rfl, rfl, rfl⟩
  | tail hs hstep ih =>
    obtain ⟨hc, hb, hi⟩ := ih
    cases hstep with
    | dispatch h1 h2 =>
      refine ⟨hc, ?_, ?_⟩
      · show _ + 1 = _ + 1
        omega
      · show _ - 1 + (_ + 1) = W
        omega
    | collect h1 h2 h3 =>
      exact absurd h1 (by omega)

/-- The first `k` task handoffs can happen (each pairs the orchestrator's
send with a still-idle worker). -/
theorem roundReachable_handoffs {W N : ℕ} :
    ∀ k, k ≤ N → k ≤ W → RoundReachable W N ⟨k, 0, W - k, k⟩ := by
  intro k
  induction k with
  | zero => exact fun _ _ => Relation.ReflTransGen.refl
  | succ k ih =>
    intro hkN hkW
    exact Relation.ReflTransGen.tail (ih (by omega) (by omega))
      (RoundStep.dispatch (show k < N by omega) (show 0 < W - k by omega))

/-- With enough workers (`N ≤ W`) the collect phase runs to completion
after the `N` handoffs. -/
theorem round_collects {W N : ℕ} (hNW : N ≤ W) :
    ∀ j, j ≤ N → RoundReachable W N ⟨N, j, W - N + j, N - j⟩ := by
  intro j
  induction j with
  | zero => exact fun _ => roundReachable_handoffs N le_rfl hNW
  | succ j ih =>
    intro hj
    exact Relation.ReflTransGen.tail (ih (by omega))
      (RoundStep.collect rfl (show j < N by omega) (show 0 < N - j by omega))

/-- Model-level optimality of the algorithmic content: in the embedding,
whose expansion round is the completed fold of the round's proposals (see
`RoundStep` for the channel protocol that, in the program, prevents the
round from completing when a popped node has more neighbors than workers),
`Search` on a finite node type with non-negative costs and an admissible,
consistent heuristic returns a found result of optimal total cost whenever
a path exists. -/
theorem search_model_optimal [Fintype Node] {G : Graph Node} {h : Heuristic Node}
    {startNode goalNode : Node}
    (hnn : NonnegCosts G) (hadm : Admissible G h goalNode)
    (hcons : Consistent G h goalNode)
    (hpath : ∃ steps, IsPath G startNode steps goalNode)
    (fuel : ℕ) (hfuel : Fintype.card Node + 1 ≤ fuel) :
    ∃ r stF, Search G h startNode goalNode fuel = some (r, stF) ∧ r.found = true ∧
      (∃ steps, IsPath G startNode steps goalNode ∧ pathCost steps = r.totalCost) ∧
      (∀ steps, IsPath G startNode steps goalNode → r.totalCost ≤ pathCost steps) := by
  have hsome := searchLoop_isSome (G := G) fuel (initState h startNode goalNode)
    (initState_inv h startNode goalNode) (initState_expInv h startNode goalNode)
    (by simp [initState]; omega)
  obtain ⟨⟨r, stF⟩, hres⟩ := Option.isSome_iff_exists.mp hsome
  obtain ⟨hfound, hsound, hopt⟩ := searchLoop_found_optimal hcons fuel _ r stF
    (initState_inv h startNode goalNode) (initState_expInv h startNode goalNode)
    (initState_closedOptimal h startNode goalNode)
    (by simp [initState]) hpath hres
  exact ⟨r, stF, hres, hfound, hsound, hopt⟩

/-- A node with two unit-cost neighbors: the smallest input shape on which
a single-worker `Search` deadlocks. -/
def forkGraph : Graph ℕ :=
  { neighbors := fun n => if n = 0 then [⟨1, 1⟩, ⟨2, 1⟩] else [] }

/-- C1: refuted of the program — the claim promises `Search` returns a
found result of optimal cost whenever a path exists, but the expansion
round's channel protocol deadlocks on every schedule as soon as a popped
node has more neighbors than workers. The orchestrator sends one task per
neighbor on the unbuffered task channel before receiving any proposal,
while a worker, having taken one task, blocks forever in the plain
(non-select) send of its proposal. With `W` workers, `W < |G.neighbors u|`:
(1) every reachable channel state of `u`'s expansion round has collected
nothing, so the round never completes and `Search` never returns; (2) a
step is possible exactly while fewer than `W` handoffs happened, so every
schedule wedges after exactly `W` handoffs; (3) the wedged state is
reachable and stuck. (4) With enough workers the round does complete, so
the deadlock is the protocol's, not an artifact of the model. -/
theorem c1_search_deadlock {G : Graph Node} {u : Node} {W : ℕ} :
    (W < (G.neighbors u).length →
      ∀ s, RoundReachable W (G.neighbors u).length s →
        s.collected = 0 ∧ ¬ RoundDone (G.neighbors u).length s) ∧
    (W < (G.neighbors u).length →
      ∀ s, RoundReachable W (G.neighbors u).length s →
        ((∃ s', RoundStep (G.neighbors u).length s s') ↔ s.tasksSent < W)) ∧
    (W < (G.neighbors u).length →
      RoundReachable W (G.neighbors u).length ⟨W, 0, 0, W⟩ ∧
      ∀ s', ¬ RoundStep (G.neighbors u).length ⟨W, 0, 0, W⟩ s') ∧
    ((G.neighbors u).length ≤ W →
      ∃ s, RoundReachable W (G.neighbors u).length s ∧
        RoundDone (G.neighbors u).length s) := by
  refine ⟨?_, ?_, ?_, ?_⟩
  · intro hWN s hreach
    obtain ⟨hc, -, -⟩ := roundReachable_inv hWN hreach
    refine ⟨hc, fun hdone => ?_⟩
    have hd : s.collected = (G.neighbors u).length := hdone
    omega
  · intro hWN s hreach
    obtain ⟨-, -, hi⟩ := roundReachable_inv hWN hreach
    constructor
    · rintro ⟨s', hstep⟩
      cases hstep with
      | dispatch h1 h2 => omega
      | collect h1 h2 h3 => omega
    · intro hlt
      exact ⟨_, RoundStep.dispatch (by omega) (by omega)⟩
  · intro hWN
    constructor
    · have hr := roundReachable_handoffs (N := (G.neighbors u).length) W
        (le_of_lt hWN) le_rfl
      rwa [Nat.sub_self] at hr
    · rintro s' hstep
      cases hstep with
      | dispatch h1 h2 => exact absurd h2 (Nat.lt_irrefl 0)
      | collect h1 h2 h3 => exact absurd h1 (Nat.ne_of_lt hWN)
  · intro hNW
    exact ⟨⟨(G.neighbors u).length, (G.neighbors u).length,
      W - (G.neighbors u).length + (G.neighbors u).length,
      (G.neighbors u).length - (G.neighbors u).length⟩,
      round_collects hNW (G.neighbors u).length le_rfl, rfl⟩

theorem c1_search_deadlock_witness :
    ((1 : ℕ) < (forkGraph.neighbors 0).length ∧
      RoundReachable 1 (forkGraph.neighbors 0).length ⟨1, 0, 0, 1⟩ ∧
      (∀ s', ¬ RoundStep (forkGraph.neighbors 0).length ⟨1, 0, 0, 1⟩ s') ∧
      (⟨1, 0, 0, 1⟩ : RoundState).collected = 0 ∧
      ¬ RoundDone (forkGraph.neighbors 0).length ⟨1, 0, 0, 1⟩ ∧
      ((∃ s', RoundStep (forkGraph.neighbors 0).length ⟨1, 0, 0, 1⟩ s') ↔
        (⟨1, 0, 0, 1⟩ : RoundState).tasksSent < 1)) ∧
    ((forkGraph.neighbors 0).length ≤ 2 ∧
      ∃ s, RoundReachable 2 (forkGraph.neighbors 0).length s ∧
        RoundDone (forkGraph.neighbors 0).length s) := by
  have h12 : (1 : ℕ) < (forkGraph.neighbors 0).length := by decide
  have h22 : (forkGraph.neighbors 0).length ≤ 2 := by decide
  obtain ⟨hreach, hstuck⟩ :=
    (c1_search_deadlock (G := forkGraph) (u := 0) (W := 1)).2.2.1 h12
  obtain ⟨hc, hnd⟩ :=
    (c1_search_deadlock (G := forkGraph) (u := 0) (W := 1)).1 h12 _ hreach
  have hiff :=
    (c1_search_deadlock (G := forkGraph) (u := 0) (W := 1)).2.1 h12 _ hreach
  exact ⟨⟨h12, hreach, hstuck, hc, hnd, hiff⟩,
    h22, (c1_search_deadlock (G := forkGraph) (u := 0) (W := 2)).2.2.2 h22⟩

/-- C2 (amended): after a Stepper has returned a snapshot with `Done=true`,
every subsequent `Step` call mutates no state, does not advance the step
index, and returns one fixed snapshot agreeing with the terminal snapshot
on `Open`, `Closed`, `CameFrom`, `Done`, `Found` and `StepIndex`; its
`Path` is however empty and its `Current` is the zero value, so after a
goal-found terminal snapshot the subsequent snapshots are not identical to
it in the `Path` and `Current` fields. -/
theorem c2_terminal_idempotent {G : Graph Node} {h : Heuristic Node} {goalNode : Node}
    {s : StepperState Node} (hd : s.done = true) (fuel fuel' : ℕ) :
    stepperStep G h goalNode (fuel + 1) s = some (s, doneSnapshot s) ∧
    stepperStep G h goalNode (fuel' + 1) s = some (s, doneSnapshot s) ∧
    (doneSnapshot s).stepIndex = s.stepCount ∧ (doneSnapshot s).done = true ∧
    (doneSnapshot s).found = s.found ∧
    (doneSnapshot s).openSet = openNodeList s.core.openSet ∧
    (doneSnapshot s).closedSet = s.core.closedSet ∧
    (doneSnapshot s).cameFrom = s.core.cameFrom ∧
    (doneSnapshot s).path = [] ∧ (doneSnapshot s).current = none :=
  ⟨stepperStep_done hd, stepperStep_done hd, rfl, rfl, rfl, rfl, rfl, rfl, rfl, rfl⟩

theorem c2_terminal_idempotent_witness :
    exS2.done = true ∧
    (stepperStep lineGraph zeroH 1 1 exS2 = some (exS2, doneSnapshot exS2) ∧
     stepperStep lineGraph zeroH 1 1 exS2 = some (exS2, doneSnapshot exS2) ∧
     (doneSnapshot exS2).stepIndex = exS2.stepCount ∧ (doneSnapshot exS2).done = true ∧
     (doneSnapshot exS2).found = exS2.found ∧
     (doneSnapshot exS2).openSet = openNodeList exS2.core.openSet ∧
     (doneSnapshot exS2).closedSet = exS2.core.closedSet ∧
     (doneSnapshot exS2).cameFrom = exS2.core.cameFrom ∧
     (doneSnapshot exS2).path = [] ∧ (doneSnapshot exS2).current = none) :=
  ⟨by decide, c2_terminal_idempotent (by decide) 0 0⟩

/-- C2 (counterexample to the claim as stated): on the one-edge graph the
second `Step` call returns the goal-found terminal snapshot with
`Path = [0, 1]` and `Current = some 1`, while the third call returns a
snapshot with `Path = []` and `Current = none`: the subsequent snapshot is
not identical to the terminal snapshot in every field. -/
theorem c2_counterexample :
    (exRun2.map fun pr => (pr.2.done, pr.2.found, pr.2.path, pr.2.current)) =
      some (true, true, [0, 1], some 1) ∧
    (exRun3.map fun pr => (pr.2.done, pr.2.found, pr.2.path, pr.2.current)) =
      some (true, true, [], none) ∧
    (exRun3.map fun pr => pr.2.path) ≠ (exRun2.map fun pr => pr.2.path) ∧
    (exRun3.map fun pr => pr.2.current) ≠ (exRun2.map fun pr => pr.2.current) := by
  refine ⟨by decide, by decide, by decide, by decide⟩

/-- C3: every `Search` run returning `Found=true` returns a non-empty path
that starts at the start node, ends at the goal node, follows edges
returned by the graph's `Neighbors` function, and whose summed edge costs
equal the returned `TotalCost`. -/
theorem c3_path_valid {G : Graph Node} {h : Heuristic Node} {startNode goalNode : Node}
    (fuel : ℕ) {r : Result Node} {stF : SearchState Node}
    (hrun : Search G h startNode goalNode fuel = some (r, stF))
    (hfound : r.found = true) :
    r.path ≠ [] ∧ r.path.head? = some startNode ∧ r.path.getLast? = some goalNode ∧
    ∃ steps, IsPath G startNode steps goalNode ∧ r.path = pathNodes startNode steps ∧
      pathCost steps = r.totalCost := by
  obtain ⟨steps, hsteps, hpath, hcost⟩ := searchLoop_path_valid fuel _ r stF
    (initState_inv h startNode goalNode) hrun hfound
  refine ⟨?_, ?_, ?_, steps, hsteps, hpath, hcost⟩
  · rw [hpath]
    simp [pathNodes]
  · rw [hpath]
    rfl
  · rw [hpath]
    exact pathNodes_getLast hsteps

/-- The concrete `Search` run on the one-edge graph, used as a witness. -/
def c3run : Option (Result ℕ × SearchState ℕ) := Search lineGraph zeroH 0 1 5

def c3r : Result ℕ := (c3run.map Prod.fst).getD ⟨[], 0, 0, false⟩

def c3stF : SearchState ℕ := (c3run.map Prod.snd).getD (initState zeroH 0 1)

theorem c3_path_valid_witness :
    Search lineGraph zeroH 0 1 5 = some (c3r, c3stF) ∧ c3r.found = true ∧
    (c3r.path ≠ [] ∧ c3r.path.head? = some 0 ∧ c3r.path.getLast? = some 1 ∧
     ∃ steps, IsPath lineGraph 0 steps 1 ∧ c3r.path = pathNodes 0 steps ∧
       pathCost steps = c3r.totalCost) := by
  have hrun : Search lineGraph zeroH 0 1 5 = some (c3r, c3stF) := rfl
  exact ⟨hrun, by decide, c3_path_valid 5 hrun (by decide)⟩

/-- C4: on every running Stepper arising from an actual run, a `Step` call
that pops an item closes a fresh node (the popped node is never already
closed, so the stale-retry is a no-op) and returns a step index exactly one
greater than the previous one, at every positive recursion budget — in
particular at budget one, showing no internal retry is consumed. -/
theorem c4_step_index {G : Graph Node} {h : Heuristic Node} {startNode goalNode : Node}
    {s : StepperState Node}
    (hreach : StepperReachable G h startNode goalNode s) (hd : s.done = false)
    {uIt : PriorityQueueItem Node} {rest : List (PriorityQueueItem Node)}
    (hpop : popMin s.core.openSet = some (uIt, rest)) (fuel : ℕ) :
    uIt.node ∉ s.core.closedSet ∧
    ∃ s' snap, stepperStep G h goalNode (fuel + 1) s = some (s', snap) ∧
      snap.stepIndex = s.stepCount + 1 ∧ s'.stepCount = s.stepCount + 1 := by
  have hinv := (stepperReachable_sinv hreach).1
  have hcl : uIt.node ∉ s.core.closedSet := hinv.openClosedDisjoint uIt (popMin_mem hpop)
  refine ⟨hcl, ?_⟩
  by_cases hgoal : uIt.node = goalNode
  · exact ⟨_, _, stepperStep_goal hd hpop hcl hgoal, rfl, rfl⟩
  · exact ⟨_, _, stepperStep_expand hd hpop hcl hgoal, rfl, rfl⟩

theorem c4_step_index_witness :
    StepperReachable lineGraph zeroH 0 1 exS0 ∧ exS0.done = false ∧
    popMin exS0.core.openSet = some (⟨0, 0, 0⟩, []) ∧
    ((0 : ℕ) ∉ exS0.core.closedSet ∧
     ∃ s' snap, stepperStep lineGraph zeroH 1 1 exS0 = some (s', snap) ∧
       snap.stepIndex = exS0.stepCount + 1 ∧ s'.stepCount = exS0.stepCount + 1) :=
  by
  have hpop : popMin exS0.core.openSet = some (⟨0, 0, 0⟩, []) := by decide
  exact ⟨Relation.ReflTransGen.refl, rfl, hpop,
    c4_step_index Relation.ReflTransGen.refl rfl hpop 0⟩

/-- C5: whenever `Search` returns its "not found" outcome, the frontier was
exhausted without the goal node ever being popped, and the result carries
`Found=false`, an empty path, zero total cost, and an `ExpandedNodes` count
equal to the number of nodes expanded (closed) so far. -/
theorem c5_not_found {G : Graph Node} {h : Heuristic Node} {startNode goalNode : Node}
    (fuel : ℕ) {r : Result Node} {stF : SearchState Node}
    (hrun : Search G h startNode goalNode fuel = some (r, stF))
    (hnf : r.found = false) :
    r.path = [] ∧ r.totalCost = 0 ∧ stF.openSet = [] ∧ goalNode ∉ stF.closedSet ∧
    r.expandedNodes = stF.expandedNodes ∧ stF.expandedNodes = stF.closedSet.length :=
  searchLoop_not_found fuel _ r stF (by simp [initState]) rfl hrun hnf

/-- The concrete not-found `Search` run (goal 5 unreachable), as a witness. -/
def c5run : Option (Result ℕ × SearchState ℕ) := Search lineGraph zeroH 0 5 5

def c5r : Result ℕ := (c5run.map Prod.fst).getD ⟨[], 0, 0, true⟩

def c5stF : SearchState ℕ := (c5run.map Prod.snd).getD (initState zeroH 0 5)

theorem c5_not_found_witness :
    Search lineGraph zeroH 0 5 5 = some (c5r, c5stF) ∧ c5r.found = false ∧
    (c5r.path = [] ∧ c5r.totalCost = 0 ∧ c5stF.openSet = [] ∧
     (5 : ℕ) ∉ c5stF.closedSet ∧ c5r.expandedNodes = c5stF.expandedNodes ∧
     c5stF.expandedNodes = c5stF.closedSet.length) := by
  have hrun : Search lineGraph zeroH 0 5 5 = some (c5r, c5stF) := rfl
  exact ⟨hrun, by decide, c5_not_found 5 hrun (by decide)⟩

/-- C6: stepping a `Stepper` to completion (same graph, heuristic, start
and goal; the worker count affects neither model) terminates with the same
found flag, the same closed set (hence the same closed-set cardinality),
and the same path as the run-to-completion `Search` call — and when found,
the path realizes the returned total cost. -/
theorem c6_stepper_search_equiv {G : Graph Node} {h : Heuristic Node}
    {startNode goalNode : Node} (fuel : ℕ) {r : Result Node} {stF : SearchState Node}
    (hrun : Search G h startNode goalNode fuel = some (r, stF)) :
    ∃ s' snap, stepperRun G h goalNode fuel (newStepper h startNode goalNode) =
        some (s', snap) ∧
      snap.done = true ∧ snap.found = r.found ∧ s'.found = r.found ∧
      s'.core.closedSet = stF.closedSet ∧
      s'.core.closedSet.length = stF.closedSet.length ∧
      snap.path = r.path ∧
      (r.found = true → ∃ steps, IsPath G startNode steps goalNode ∧
        snap.path = pathNodes startNode steps ∧ pathCost steps = r.totalCost) := by
  obtain ⟨s', snap, hsrun, hdone, hfound, hsfound, hcore, hclosed, hpath⟩ :=
    stepperRun_matches_searchLoop fuel _ (newStepper h startNode goalNode) r stF
      (initState_inv h startNode goalNode) rfl rfl rfl hrun
  refine ⟨s', snap, hsrun, hdone, hfound, hsfound, by rw [hcore], by rw [hcore],
    hpath, ?_⟩
  intro hf
  obtain ⟨steps, hsteps, hrpath, hcost⟩ := searchLoop_path_valid fuel _ r stF
    (initState_inv h startNode goalNode) hrun hf
  exact ⟨steps, hsteps, by rw [hpath, hrpath], hcost⟩

theorem c6_stepper_search_equiv_witness :
    Search lineGraph zeroH 0 1 5 = some (c3r, c3stF) ∧
    (∃ s' snap, stepperRun lineGraph zeroH 1 5 (newStepper zeroH 0 1) =
        some (s', snap) ∧
      snap.done = true ∧ snap.found = c3r.found ∧ s'.found = c3r.found ∧
      s'.core.closedSet = c3stF.closedSet ∧
      s'.core.closedSet.length = c3stF.closedSet.length ∧
      snap.path = c3r.path ∧
      (c3r.found = true → ∃ steps, IsPath lineGraph 0 steps 1 ∧
        snap.path = pathNodes 0 steps ∧ pathCost steps = c3r.totalCost)) := by
  have hrun : Search lineGraph zeroH 0 1 5 = some (c3r, c3stF) := rfl
  exact ⟨hrun, c6_stepper_search_equiv 5 hrun⟩

/-- C7: throughout every `Search` run and every sequence of `Step` calls,
the closed set only grows (each iteration leaves it unchanged or appends
the newly closed node), and no reachable state ever holds a closed node in
its frontier — so a node already closed is never pushed into it. -/
theorem c7_closed_monotone {G : Graph Node} {h : Heuristic Node}
    {startNode goalNode : Node} :
    (∀ st st', SearchIter G h startNode goalNode st st' →
      st.closedSet ⊆ st'.closedSet) ∧
    (∀ st, SearchReachable G h startNode goalNode st →
      ∀ it ∈ st.openSet, it.node ∉ st.closedSet) ∧
    (∀ (fuel : ℕ) (s s' : StepperState Node) (snap : StepSnapshot Node),
      stepperStep G h goalNode fuel s = some (s', snap) →
      s.core.closedSet ⊆ s'.core.closedSet) ∧
    (∀ s, StepperReachable G h startNode goalNode s →
      ∀ it ∈ s.core.openSet, it.node ∉ s.core.closedSet) := by
  refine ⟨?_, ?_, ?_, ?_⟩
  · intro st st' hit
    cases hit with
    | stale hpop hcl => exact fun n hn => hn
    | close hpop hcl hg => exact fun n hn => List.mem_append_left _ hn
    | expand hpop hcl hg =>
      intro n hn
      show n ∈ ((proposalsFor h goalNode _ _ _).foldl applyProposal _).closedSet
      rw [foldl_applyProposal_closedSet]
      exact List.mem_append_left _ hn
  · intro st hreach
    exact (searchReachable_inv hreach).openClosedDisjoint
  · intro fuel s s' snap hstep
    exact stepperStep_closed_mono hstep
  · intro s hreach
    exact (stepperReachable_sinv hreach).1.openClosedDisjoint

theorem c7_closed_monotone_witness :
    (initState zeroH 0 0).closedSet ⊆ [0] := by
  have hpop : popMin (initState zeroH 0 0).openSet = some (⟨0, 0, 0⟩, []) := by decide
  have hcl : (PriorityQueueItem.node ⟨0, 0, 0⟩ : ℕ) ∉ (initState zeroH 0 0).closedSet := by
    decide
  exact (@c7_closed_monotone ℕ _ lineGraph zeroH 0 0).1 _ _
    (SearchIter.close hpop hcl rfl)

/-- C8: throughout every `Search` run and every sequence of `Step` calls,
each node's g-score entry is monotonically non-increasing — per transition
it is unchanged, newly created, or replaced by a strictly smaller value —
and a node with no entry is treated as having infinite cost: a proposal for
an uncclosed node with no entry always installs its g-score. -/
theorem c8_gscore_monotone {G : Graph Node} {h : Heuristic Node}
    {startNode goalNode : Node} :
    (∀ st st', SearchIter G h startNode goalNode st st' → GMono st st') ∧
    (∀ (fuel : ℕ) (s s' : StepperState Node) (snap : StepSnapshot Node),
      stepperStep G h goalNode fuel s = some (s', snap) → GMono s.core s'.core) ∧
    (∀ (st : SearchState Node) (p : RelaxProposal Node), p.toNode ∉ st.closedSet →
      st.pathCostFromStart p.toNode = none →
      (applyProposal st p).pathCostFromStart p.toNode = some p.gScore) := by
  refine ⟨fun st st' hit => searchIter_gMono hit,
    fun fuel s s' snap hstep => stepperStep_gMono hstep, ?_⟩
  intro st p hc hnone
  have hu : shouldUpdate (st.pathCostFromStart p.toNode) p.gScore = true := by
    rw [hnone]
    rfl
  rcases applyProposal_cases st p with ⟨hc', -⟩ | ⟨-, hu', -⟩ | ⟨-, -, -, he⟩ |
    ⟨item, -, -, -, -, he⟩ | ⟨item, -, -, -, -, he⟩
  · exact absurd hc' hc
  · rw [hu] at hu'
    cases hu'
  all_goals {
    rw [he]
    simp }

theorem c8_gscore_monotone_witness :
    ((1 : ℕ) ∉ (initState zeroH 0 1).closedSet) ∧
    (initState zeroH 0 1).pathCostFromStart 1 = none ∧
    (applyProposal (initState zeroH 0 1)
      ⟨0, 1, 1, 1⟩).pathCostFromStart 1 = some 1 := by
  have hc : (1 : ℕ) ∉ (initState zeroH 0 1).closedSet := by decide
  have hnone : (initState zeroH 0 1).pathCostFromStart 1 = none := by decide
  exact ⟨hc, hnone,
    (@c8_gscore_monotone ℕ _ lineGraph zeroH 0 1).2.2
      (initState zeroH 0 1) ⟨0, 1, 1, 1⟩ hc hnone⟩

/-- C9: whenever a `Stepper` arising from an actual run pops the goal node,
walking predecessor links from the goal terminates and
`inferStartFromCameFrom` returns the originally supplied start node, so the
goal-found snapshot's path equals `reconstructPath` applied to the same
predecessor map with the true start node. -/
theorem c9_infer_start {G : Graph Node} {h : Heuristic Node}
    {startNode goalNode : Node} {s : StepperState Node}
    (hreach : StepperReachable G h startNode goalNode s) (hd : s.done = false)
    {uIt : PriorityQueueItem Node} {rest : List (PriorityQueueItem Node)}
    (hpop : popMin s.core.openSet = some (uIt, rest))
    (hgoal : uIt.node = goalNode) (fuel : ℕ) :
    ∃ s' snap, stepperStep G h goalNode (fuel + 1) s = some (s', snap) ∧
      inferStartFromCameFrom s'.core.cameFrom s'.core.closedSet.length goalNode =
        startNode ∧
      snap.path = reconstructPath s'.core.closedSet.length s'.core.cameFrom goalNode
        startNode := by
  have hinv := (stepperReachable_sinv hreach).1
  have hcl : uIt.node ∉ s.core.closedSet := hinv.openClosedDisjoint uIt (popMin_mem hpop)
  have hinv2 := popClose_inv hinv hpop (s.core.expandedNodes + 1)
  have hmem2 : uIt.node ∈ s.core.closedSet ++ [uIt.node] :=
    List.mem_append_right _ (List.mem_cons_self _ _)
  obtain ⟨gn, steps, -, -, -, hrecon, hinfer⟩ := reconstructPath_closed hinv2 hmem2
  refine ⟨_, _, stepperStep_goal hd hpop hcl hgoal, ?_, ?_⟩
  · rw [← hgoal]
    exact hinfer
  · rw [← hgoal]
    show reconstructPath (s.core.closedSet ++ [uIt.node]).length s.core.cameFrom
        uIt.node
        (inferStartFromCameFrom s.core.cameFrom
          (s.core.closedSet ++ [uIt.node]).length uIt.node) =
      reconstructPath (s.core.closedSet ++ [uIt.node]).length s.core.cameFrom
        uIt.node startNode
    rw [show inferStartFromCameFrom s.core.cameFrom
      (s.core.closedSet ++ [uIt.node]).length uIt.node = startNode from hinfer]

theorem c9_infer_start_witness :
    StepperReachable lineGraph zeroH 0 1 exS1 ∧ exS1.done = false ∧
    popMin exS1.core.openSet = some (exItem1, []) ∧ exItem1.node = 1 ∧
    (∃ s' snap, stepperStep lineGraph zeroH 1 1 exS1 = some (s', snap) ∧
      inferStartFromCameFrom s'.core.cameFrom s'.core.closedSet.length 1 = 0 ∧
      snap.path = reconstructPath s'.core.closedSet.length s'.core.cameFrom 1 0) := by
  have hreach : StepperReachable lineGraph zeroH 0 1 exS1 :=
    Relation.ReflTransGen.single
      ⟨1, (exRun1.map Prod.snd).getD (doneSnapshot exS0), rfl⟩
  have hpop : popMin exS1.core.openSet = some (exItem1, []) := rfl
  exact ⟨hreach, rfl, hpop, rfl, c9_infer_start hreach rfl hpop rfl 0⟩

/-- C10: in every run of `Search` and every sequence of `Step` calls, every
popped frontier item holds a not-yet-closed node (the stale-discard branch
is unreachable); a node enters the frontier only when absent from the
open-set index and not closed; proposals targeting closed nodes are
discarded outright; and nodes are closed only at pop time. -/
theorem c10_no_stale {G : Graph Node} {h : Heuristic Node}
    {startNode goalNode : Node} :
    (∀ st, SearchReachable G h startNode goalNode st →
      ∀ uIt rest, popMin st.openSet = some (uIt, rest) → uIt.node ∉ st.closedSet) ∧
    (∀ s, StepperReachable G h startNode goalNode s →
      ∀ uIt rest, popMin s.core.openSet = some (uIt, rest) →
        uIt.node ∉ s.core.closedSet) ∧
    (∀ (st : SearchState Node) (p : RelaxProposal Node) (n : Node),
      n ∈ openNodeList (applyProposal st p).openSet →
      n ∈ openNodeList st.openSet ∨
      (n = p.toNode ∧ findOpenItem st.openSet p.toNode = none ∧
        p.toNode ∉ st.closedSet)) ∧
    (∀ (st : SearchState Node) (p : RelaxProposal Node),
      p.toNode ∈ st.closedSet → applyProposal st p = st) ∧
    (∀ st st', SearchIter G h startNode goalNode st st' →
      st'.closedSet = st.closedSet ∨
      ∃ uIt rest, popMin st.openSet = some (uIt, rest) ∧ uIt.node ∉ st.closedSet ∧
        st'.closedSet = st.closedSet ++ [uIt.node]) := by
  refine ⟨?_, ?_, ?_, ?_, ?_⟩
  · intro st hreach uIt rest hpop
    exact (searchReachable_inv hreach).openClosedDisjoint uIt (popMin_mem hpop)
  · intro s hreach uIt rest hpop
    exact (stepperReachable_sinv hreach).1.openClosedDisjoint uIt (popMin_mem hpop)
  · intro st p n hn
    rcases applyProposal_cases st p with ⟨-, he⟩ | ⟨-, -, he⟩ | ⟨hc, hu, hf, he⟩ |
      ⟨item, hc, hu, hf, hlt, he⟩ | ⟨item, hc, hu, hf, hnlt, he⟩ <;> rw [he] at hn
    · exact Or.inl hn
    · exact Or.inl hn
    · simp only [openNodeList, List.map_append, List.map_cons, List.map_nil,
        List.mem_append, List.mem_singleton] at hn
      rcases hn with hn | hn
      · exact Or.inl hn
      · exact Or.inr ⟨hn, hf, hc⟩
    · left
      simp only [openNodeList, List.map_map] at hn ⊢
      obtain ⟨it, hit, hnd⟩ := List.mem_map.mp hn
      refine List.mem_map.mpr ⟨it, hit, ?_⟩
      rw [← hnd]
      by_cases hnn : it.node = p.toNode <;> simp [hnn]
    · exact Or.inl hn
  · intro st p hc
    simp [applyProposal, hc]
  · intro st st' hit
    cases hit with
    | stale hpop hcl => exact Or.inl rfl
    | close hpop hcl hg => exact Or.inr ⟨_, _, hpop, hcl, rfl⟩
    | expand hpop hcl hg =>
      refine Or.inr ⟨_, _, hpop, hcl, ?_⟩
      show ((proposalsFor h goalNode _ _ _).foldl applyProposal _).closedSet = _
      rw [foldl_applyProposal_closedSet]

theorem c10_no_stale_witness :
    (1 : ℕ) ∈ closedExSt.closedSet ∧
    applyProposal closedExSt ⟨0, 1, 5, 5⟩ = closedExSt := by
  have hc : ((⟨0, 1, 5, 5⟩ : RelaxProposal ℕ).toNode : ℕ) ∈ closedExSt.closedSet := by
    decide
  exact ⟨hc, (@c10_no_stale ℕ _ lineGraph zeroH 0 1).2.2.2.1
    closedExSt ⟨0, 1, 5, 5⟩ hc⟩

end AStar
